import Mathlib

/-!
LRU cache (`lrucache.go`): embedding and verification.

The Go program keeps a `container/list` doubly linked list of elements (most
recently set first) and a `map[string]*list.Element` index into it.  The
embedding keeps both, linked by element pointers:

* element pointers are natural numbers, addresses into `heap`, the arena of all
  list elements allocated so far (an element and the `*CacheItem` it carries are
  allocated together by `Set`, and are one cell here);
* `order` is the list, as the sequence of element pointers from front to back;
* `keyMap` is the map, as an association list with distinct keys;
* a dereference of a pointer that holds no element (Go: a nil dereference or a
  failed type assertion, both panics) makes the operation return `none`;
* calls of the eviction callback and lines written by the diagnostic logging are
  recorded in the list of events each operation returns;
* the mutex is not modelled: operations are applied one after another.
-/

set_option autoImplicit false

namespace LruCacheGo

/-! ## Data model -/

/-- A value of Go type `interface{}`: the nil interface, or a payload. -/
inductive Value (α : Type) where
  | nil : Value α
  | of (a : α) : Value α
  deriving DecidableEq, Repr

/-- The Go type `EvictCallback`, a func value.  Its body runs outside the store
and must not touch it; the embedding keeps the identity of the func and records
every call of it as an event. -/
structure EvictCallback where
  fn : Nat
  deriving DecidableEq, Repr

/-- The Go struct `Options`; `evictCallback = none` is the nil func. -/
structure Options where
  logs : Bool
  evictCallback : Option EvictCallback
  deriving DecidableEq, Repr

/-- The Go struct `CacheItem`. -/
structure CacheItem (α : Type) where
  key : String
  value : Value α
  deriving DecidableEq, Repr

/-! ## `map[string]*list.Element` -/

namespace GoMap

/-- Map read `m[key]` in its comma-ok form: `some e` when the key is present. -/
def get (m : List (String × Nat)) (key : String) : Option Nat :=
  match m with
  | [] => none
  | kv :: rest => if kv.1 = key then some kv.2 else get rest key

/-- Builtin `delete(m, key)`. -/
def delete (m : List (String × Nat)) (key : String) : List (String × Nat) :=
  m.filter (fun kv => decide (kv.1 ≠ key))

/-- Map write `m[key] = e`: any earlier binding of the key is replaced. -/
def set (m : List (String × Nat)) (key : String) (e : Nat) : List (String × Nat) :=
  (key, e) :: delete m key

/-- Builtin `len(m)`, for a map held with distinct keys. -/
def len (m : List (String × Nat)) : Nat :=
  m.length

/-- The keys of the map. -/
def keys (m : List (String × Nat)) : List String :=
  m.map Prod.fst

end GoMap

/-! ## `container/list` -/

namespace GoList

/-- Method `PushFront`, for the freshly allocated element `e`. -/
def PushFront (order : List Nat) (e : Nat) : List Nat :=
  e :: order

/-- Method `MoveToFront(e)`: no change when `e` is not an element of the list. -/
def MoveToFront (order : List Nat) (e : Nat) : List Nat :=
  if e ∈ order then e :: order.erase e else order

/-- Method `Remove(e)`: no change when `e` is not an element of the list. -/
def Remove (order : List Nat) (e : Nat) : List Nat :=
  order.erase e

/-- Method `Back`: the last element, `none` (nil) for the empty list. -/
def Back (order : List Nat) : Option Nat :=
  order.getLast?

/-- Method `Len`. -/
def Len (order : List Nat) : Nat :=
  order.length

end GoList

/-! ## The store -/

/-- The Go struct `LRUCache` (without its mutex), together with the arena `heap`
of the list elements allocated so far, addressed by element pointer. -/
structure LRUCache (α : Type) where
  maxEntries : Int
  keyMap : List (String × Nat)
  order : List Nat
  options : Options
  heap : List (CacheItem α)
  deriving DecidableEq, Repr

/-- What an operation does to the world outside the store. -/
inductive Event (α : Type) where
  /-- A call `evictCallback(key, value)`, with the store as it is at that moment. -/
  | evict (cb : EvictCallback) (key : String) (value : Value α) (store : LRUCache α)
  /-- A line written by `log.Printf`. -/
  | log (msg : String)
  /-- A line written by `fmt.Printf` in `printList`, for one entry. -/
  | print (key : String) (value : Value α)
  deriving DecidableEq, Repr

/-- Function `NewLRUCache`; `none` is the nil pointer. -/
def NewLRUCache {α : Type} (maxEntries : Int) (opts : Options) : Option (LRUCache α) :=
  if maxEntries ≤ 0 then none
  else some
    { maxEntries := maxEntries
      keyMap := []
      order := []
      options := opts
      heap := [] }

namespace LRUCache

variable {α : Type}

/-- The loop of `printList` over the elements from `Front()` along `Next()`. -/
def printFrom (heap : List (CacheItem α)) : List Nat → Option (List (Event α))
  | [] => some []
  | e :: rest =>
    match heap[e]? with
    | none => none
    | some item =>
      match printFrom heap rest with
      | none => none
      | some out => some (Event.print item.key item.value :: out)

/-- Method `printList`. -/
def printList (l : LRUCache α) : Option (List (Event α)) :=
  printFrom l.heap l.order

/-- Method `removeElement`; `e = none` is the nil element. -/
def removeElement (l : LRUCache α) (e : Option Nat) : Option (LRUCache α × List (Event α)) :=
  match e with
  | none => some (l, [])
  | some p =>
    let l1 := { l with order := GoList.Remove l.order p }
    match l1.heap[p]? with
    | none => none
    | some item =>
      let l2 := { l1 with keyMap := GoMap.delete l1.keyMap item.key }
      match l2.options.evictCallback with
      | some cb => some (l2, [Event.evict cb item.key item.value l2])
      | none => some (l2, [])

/-- Method `removeLastElement`. -/
def removeLastElement (l : LRUCache α) : Option (LRUCache α × List (Event α)) :=
  removeElement l (GoList.Back l.order)

/-- Method `Set`: the return value, the store after the call and the events. -/
def Set (l : LRUCache α) (key : String) (value : Value α) :
    Option (Bool × LRUCache α × List (Event α)) :=
  match GoMap.get l.keyMap key with
  | some elem =>
    match l.heap[elem]? with
    | none => none
    | some item =>
      let l1 := { l with heap := l.heap.set elem { item with value := value } }
      let l2 := { l1 with order := GoList.MoveToFront l1.order elem }
      if l2.options.logs then
        match printList l2 with
        | none => none
        | some out =>
          some (false, l2, Event.log ("Elem " ++ key ++ " updated to the front") :: out)
      else some (false, l2, [])
  | none =>
    let item : CacheItem α := { key := key, value := value }
    let elem := l.heap.length
    let l1 := { l with heap := l.heap ++ [item], order := GoList.PushFront l.order elem }
    let l2 := { l1 with keyMap := GoMap.set l1.keyMap key elem }
    match (if (GoList.Len l2.order : Int) > l2.maxEntries then removeLastElement l2
           else some (l2, [])) with
    | none => none
    | some (l3, ev) =>
      if l3.options.logs then
        match printList l3 with
        | none => none
        | some out =>
          some (true, l3, ev ++ Event.log ("Elem " ++ key ++ " added to the front") :: out)
      else some (true, l3, ev)

/-- Method `Get`: the return value, the store after the call and the events. -/
def Get (l : LRUCache α) (key : String) : Option (Value α × LRUCache α × List (Event α)) :=
  match GoMap.get l.keyMap key with
  | some elem =>
    match l.heap[elem]? with
    | none => none
    | some item => some (item.value, l, [])
  | none => some (Value.nil, l, [])

/-- The entries of the ordered sequence from front to back, as `testOrder` and
`printList` walk it. -/
def entries (l : LRUCache α) : List (CacheItem α) :=
  l.order.filterMap (fun e => l.heap[e]?)

/-- The keys of the ordered sequence from front to back. -/
def orderKeys (l : LRUCache α) : List String :=
  (entries l).map CacheItem.key

end LRUCache

/-! ## Sequences of calls -/

/-- A call of one of the two public methods. -/
inductive Op (α : Type) where
  | set (key : String) (value : Value α)
  | get (key : String)
  deriving DecidableEq, Repr

/-- What a call returned: the `bool` of `Set`, or the `interface{}` of `Get`. -/
inductive Ret (α : Type) where
  | set (inserted : Bool)
  | get (value : Value α)
  deriving DecidableEq, Repr

namespace LRUCache

variable {α : Type}

/-- One call on the store. -/
def step (l : LRUCache α) (op : Op α) : Option (Ret α × LRUCache α × List (Event α)) :=
  match op with
  | Op.set key value =>
    match Set l key value with
    | none => none
    | some (b, l1, ev) => some (Ret.set b, l1, ev)
  | Op.get key =>
    match Get l key with
    | none => none
    | some (v, l1, ev) => some (Ret.get v, l1, ev)

/-- The calls of `ops` applied one after another: the values returned, the store
after the last call and all events in order of occurrence. -/
def run (l : LRUCache α) : List (Op α) → Option (List (Ret α) × LRUCache α × List (Event α))
  | [] => some ([], l, [])
  | op :: ops =>
    match step l op with
    | none => none
    | some (r, l1, ev1) =>
      match run l1 ops with
      | none => none
      | some (rs, l2, ev2) => some (r :: rs, l2, ev1 ++ ev2)

/-- The calls of the eviction callback among the events, in order: which func
was called, with which key and value. -/
def evictCalls : List (Event α) → List (EvictCallback × String × Value α)
  | [] => []
  | Event.evict cb key value _ :: rest => (cb, key, value) :: evictCalls rest
  | Event.log _ :: rest => evictCalls rest
  | Event.print _ _ :: rest => evictCalls rest

end LRUCache

/-- The stores a program can hold: what `NewLRUCache` returned, after any calls
of `Set` and `Get`. -/
inductive Reachable {α : Type} : LRUCache α → Prop where
  | new (maxEntries : Int) (opts : Options) (l : LRUCache α)
      (h : NewLRUCache maxEntries opts = some l) : Reachable l
  | step (l : LRUCache α) (op : Op α) (r : Ret α) (l1 : LRUCache α) (ev : List (Event α))
      (hl : Reachable l) (h : LRUCache.step l op = some (r, l1, ev)) : Reachable l1

/-- Whether the call is a `Set`. -/
def Op.isSet {α : Type} : Op α → Bool
  | Op.set _ _ => true
  | Op.get _ => false

/-- The position, counting the calls of `ops` from 1, of the most recent `Set` of
`key`; 0 when `ops` has no `Set` of `key`. -/
def lastSet {α : Type} (ops : List (Op α)) (key : String) : Nat :=
  match ops with
  | [] => 0
  | op :: rest =>
    if lastSet rest key ≠ 0 then lastSet rest key + 1
    else
      match op with
      | Op.set k _ => if k = key then 1 else 0
      | Op.get _ => 0

/-- The representation invariant of the store: the capacity is positive and
bounds the list, no element is linked twice, the map has distinct keys, and the
map and the list hold the same elements, each under the key of its item. -/
structure Inv {α : Type} (l : LRUCache α) : Prop where
  cap_pos : 0 < l.maxEntries
  len_le : (GoList.Len l.order : Int) ≤ l.maxEntries
  order_nodup : l.order.Nodup
  keys_nodup : (GoMap.keys l.keyMap).Nodup
  map_sound : ∀ k e, (k, e) ∈ l.keyMap →
    e ∈ l.order ∧ (l.heap.map CacheItem.key)[e]? = some k
  map_complete : ∀ e ∈ l.order,
    ∃ k, (l.heap.map CacheItem.key)[e]? = some k ∧ (k, e) ∈ l.keyMap

/-! ## The scenarios of `lrucache_test.go` -/

/-- The options of `TestSetOutRange` and `TestGet`: no logging, nil callback. -/
def testOptions : Options :=
  { logs := false, evictCallback := none }

/-- The options of `TestEvictCallback`: no logging, a callback. -/
def callbackOptions : Options :=
  { logs := false, evictCallback := some { fn := 0 } }

/-- The first four calls of `TestSetOutRange`, which are the calls of `TestGet`
before its `Get`. -/
def testCalls : List (Op Int) :=
  [Op.set "a" (Value.of 1), Op.set "b" (Value.of 2), Op.set "c" (Value.of 3),
    Op.set "a" (Value.of 4)]

/-- The store of capacity 3 after `testCalls`, with the order `[a, c, b]`. -/
def storeACB : LRUCache Int :=
  { maxEntries := 3
    keyMap := [("c", 2), ("b", 1), ("a", 0)]
    order := [0, 2, 1]
    options := testOptions
    heap := [{ key := "a", value := Value.of 4 }, { key := "b", value := Value.of 2 },
      { key := "c", value := Value.of 3 }] }

/-- The first three calls of `TestEvictCallback`. -/
def callbackCalls : List (Op Int) :=
  [Op.set "a" (Value.of 8), Op.set "b" (Value.of 16), Op.set "c" (Value.of 32)]

/-- The store of capacity 3 of `TestEvictCallback` after `callbackCalls`, with the
order `[c, b, a]`. -/
def storeCBA : LRUCache Int :=
  { maxEntries := 3
    keyMap := [("c", 2), ("b", 1), ("a", 0)]
    order := [2, 1, 0]
    options := callbackOptions
    heap := [{ key := "a", value := Value.of 8 }, { key := "b", value := Value.of 16 },
      { key := "c", value := Value.of 32 }] }

/-- The store of capacity 1 after `Set("a", nil)` on a new store. -/
def storeNil : LRUCache Int :=
  { maxEntries := 1
    keyMap := [("a", 0)]
    order := [0]
    options := testOptions
    heap := [{ key := "a", value := Value.nil }] }

/-! ## Further definitions for the claims -/

namespace LRUCache

variable {α : Type}

/-- The store `Set` has built for a key the map does not hold when it compares
`l.order.Len()` with `l.maxEntries`: the element is pushed to the front and
written to the map. -/
def pushed (l : LRUCache α) (key : String) (value : Value α) : LRUCache α :=
  { l with
    heap := l.heap ++ [{ key := key, value := value }]
    order := GoList.PushFront l.order l.heap.length
    keyMap := GoMap.set l.keyMap key l.heap.length }

/-- The store with the option `logs` set to `b` and nothing else changed. -/
def withLogs (b : Bool) (l : LRUCache α) : LRUCache α :=
  { l with options := { l.options with logs := b } }

/-- The values `Set` returned among the results that are `true`, counted. -/
def insertions : List (Ret α) → Nat
  | [] => 0
  | Ret.set true :: rest => insertions rest + 1
  | Ret.set false :: rest => insertions rest
  | Ret.get _ :: rest => insertions rest

end LRUCache

/-! ## The reference model

A list of key and value pairs, most recently set first, with a capacity. -/

/-- Model `set(k, v)`: the first `c` elements of `(k, v)` followed by the list
with any pair keyed `k` removed. -/
def modelSet {α : Type} (c : Nat) (L : List (CacheItem α)) (key : String) (value : Value α) :
    List (CacheItem α) :=
  (({ key := key, value := value } : CacheItem α) ::
    L.filter (fun item => decide (item.key ≠ key))).take c

/-- Model `get(k)`: the value of the pair keyed `k`, nil (absent) when there is
none. -/
def modelGet {α : Type} (L : List (CacheItem α)) (key : String) : Value α :=
  match L.find? (fun item => decide (item.key = key)) with
  | some item => item.value
  | none => Value.nil

/-- One call on the model: what it returns (`Set` returns `true` iff the key was
not in the list) and the list after it. -/
def modelStep {α : Type} (c : Nat) (L : List (CacheItem α)) (op : Op α) :
    Ret α × List (CacheItem α) :=
  match op with
  | Op.set key value => (Ret.set (decide (key ∉ L.map CacheItem.key)), modelSet c L key value)
  | Op.get key => (Ret.get (modelGet L key), L)

/-- The calls applied to the model one after another: the values returned and
the list after the last call. -/
def modelRun {α : Type} (c : Nat) (L : List (CacheItem α)) :
    List (Op α) → List (Ret α) × List (CacheItem α)
  | [] => ([], L)
  | op :: ops =>
    ((modelStep c L op).1 :: (modelRun c (modelStep c L op).2 ops).1,
      (modelRun c (modelStep c L op).2 ops).2)

/-- The keys of the `Set` calls of `ops`, in order of the calls. -/
def setKeyList {α : Type} : List (Op α) → List String
  | [] => []
  | Op.set key _ :: rest => key :: setKeyList rest
  | Op.get _ :: rest => setKeyList rest

/-- The distinct keys set by the calls of `ops`. -/
def setKeys {α : Type} (ops : List (Op α)) : List String :=
  (setKeyList ops).dedup

/-- The value of the most recent `Set` of `key` in `ops`; `none` when `ops` has
no `Set` of `key`. -/
def lastValue {α : Type} (ops : List (Op α)) (key : String) : Option (Value α) :=
  match ops with
  | [] => none
  | op :: rest =>
    if (lastValue rest key).isSome then lastValue rest key
    else
      match op with
      | Op.set k v => if k = key then some v else none
      | Op.get _ => none

/-- The list of all pairs set so far, most recently set first: the model without
a capacity. -/
def recency {α : Type} (L : List (CacheItem α)) : List (Op α) → List (CacheItem α)
  | [] => L
  | Op.set key value :: rest =>
    recency (({ key := key, value := value } : CacheItem α) ::
      L.filter (fun item => decide (item.key ≠ key))) rest
  | Op.get _ :: rest => recency L rest

/-- The calls of `TestConcurrencyWithEviction`, goroutine after goroutine: 250
calls of `Set` with pairwise distinct keys. -/
def evictionPairs : List (String × Value Int) :=
  (List.range 5).flatMap (fun id => (List.range 50).map (fun j =>
    ("evict-key-" ++ toString id ++ "-" ++ toString j, Value.of (Int.ofNat j))))

/-- The calls of `TestSetOutRange` up to `Set(d,5)`, which evicts `b`, then a
`Set` of `b` again and two `Get` calls. -/
def reinsertCalls : List (Op Int) :=
  testCalls ++ [Op.set "d" (Value.of 5), Op.set "b" (Value.of 7), Op.get "c", Op.get "b"]

/-! ## Lemmas on the map -/

namespace GoMap

theorem get_eq_none_iff (m : List (String × Nat)) (key : String) :
    get m key = none ↔ key ∉ keys m := by
  induction m with
  | nil => simp [get, keys]
  | cons kv rest ih =>
    by_cases h : kv.1 = key
    · simp [get, keys, h]
    · have h2 : ¬ key = kv.1 := fun h3 => h h3.symm
      simp only [get, h, if_false, ih]
      simp [keys, h2]

theorem mem_of_get_eq_some (m : List (String × Nat)) (key : String) (e : Nat)
    (h : get m key = some e) : (key, e) ∈ m := by
  induction m with
  | nil => simp [get] at h
  | cons kv rest ih =>
    by_cases hk : kv.1 = key
    · simp only [get, hk, if_true, Option.some.injEq] at h
      have : kv = (key, e) := by
        cases kv; simp_all
      simp [this]
    · simp only [get, hk, if_false] at h
      exact List.mem_cons_of_mem _ (ih h)

theorem get_eq_some_of_mem (m : List (String × Nat)) (key : String) (e : Nat)
    (hnd : (keys m).Nodup) (h : (key, e) ∈ m) : get m key = some e := by
  induction m with
  | nil => simp at h
  | cons kv rest ih =>
    simp only [keys, List.map_cons, List.nodup_cons] at hnd
    rcases List.mem_cons.1 h with h1 | h1
    · subst h1
      simp [get]
    · have hne : kv.1 ≠ key := by
        intro h2
        apply hnd.1
        rw [h2]
        exact List.mem_map_of_mem Prod.fst h1
      simp only [get, hne, if_false]
      exact ih hnd.2 h1

theorem mem_keys_iff (m : List (String × Nat)) (key : String) :
    key ∈ keys m ↔ ∃ e, (key, e) ∈ m := by
  simp [keys]

theorem mem_delete (m : List (String × Nat)) (key : String) (kv : String × Nat) :
    kv ∈ delete m key ↔ kv ∈ m ∧ kv.1 ≠ key := by
  simp [delete, List.mem_filter]

theorem keys_delete_nodup (m : List (String × Nat)) (key : String)
    (hnd : (keys m).Nodup) : (keys (delete m key)).Nodup := by
  have hs : List.Sublist (delete m key) m := List.filter_sublist m
  exact List.Nodup.sublist (List.Sublist.map Prod.fst hs) hnd

theorem not_mem_keys_delete (m : List (String × Nat)) (key : String) :
    key ∉ keys (delete m key) := by
  intro h
  rcases (mem_keys_iff _ _).1 h with ⟨e, he⟩
  exact ((mem_delete _ _ _).1 he).2 rfl

theorem delete_eq_self (m : List (String × Nat)) (key : String)
    (h : key ∉ keys m) : delete m key = m := by
  unfold delete
  rw [List.filter_eq_self]
  intro kv hkv
  have : kv.1 ≠ key := by
    intro h2
    apply h
    rw [← h2]
    exact List.mem_map_of_mem Prod.fst hkv
  simpa using this

theorem delete_cons_eq (kv : String × Nat) (rest : List (String × Nat)) (key : String)
    (h : kv.1 = key) : delete (kv :: rest) key = delete rest key := by
  simp [delete, List.filter_cons, h]

theorem delete_cons_ne (kv : String × Nat) (rest : List (String × Nat)) (key : String)
    (h : kv.1 ≠ key) : delete (kv :: rest) key = kv :: delete rest key := by
  simp [delete, List.filter_cons, h]

theorem length_delete_of_mem (m : List (String × Nat)) (key : String)
    (hnd : (keys m).Nodup) (h : key ∈ keys m) :
    (delete m key).length + 1 = m.length := by
  induction m with
  | nil => simp [keys] at h
  | cons kv rest ih =>
    simp only [keys, List.map_cons, List.nodup_cons] at hnd
    by_cases hk : kv.1 = key
    · have hnot : key ∉ keys rest := by rw [← hk]; exact hnd.1
      rw [delete_cons_eq kv rest key hk, delete_eq_self rest key hnot]
      simp
    · have hmem : key ∈ keys rest := by
        simp only [keys, List.map_cons, List.mem_cons] at h
        rcases h with h | h
        · exact absurd h.symm hk
        · exact h
      rw [delete_cons_ne kv rest key hk]
      simp only [List.length_cons]
      rw [ih hnd.2 hmem]

end GoMap

variable {α : Type}

/-! ## Consequences of the invariant -/

theorem Inv.lt_heap {l : LRUCache α} (h : Inv l) (e : Nat) (he : e ∈ l.order) :
    e < l.heap.length := by
  rcases h.map_complete e he with ⟨k, hk, _⟩
  have := (List.getElem?_eq_some_iff.1 hk).1
  simpa using this

theorem Inv.deref {l : LRUCache α} (h : Inv l) (e : Nat) (he : e ∈ l.order) :
    ∃ item, l.heap[e]? = some item ∧ (item.key, e) ∈ l.keyMap := by
  rcases h.map_complete e he with ⟨k, hk, hmem⟩
  have hlt := h.lt_heap e he
  refine ⟨l.heap[e], List.getElem?_eq_getElem hlt, ?_⟩
  have : (l.heap.map CacheItem.key)[e]? = some (l.heap[e]).key := by
    rw [List.getElem?_map, List.getElem?_eq_getElem hlt]; rfl
  rw [this] at hk
  cases hk
  exact hmem

theorem Inv.get_some {l : LRUCache α} (h : Inv l) (key : String) (e : Nat)
    (hget : GoMap.get l.keyMap key = some e) :
    e ∈ l.order ∧ ∃ item, l.heap[e]? = some item ∧ item.key = key := by
  have hmem := GoMap.mem_of_get_eq_some _ _ _ hget
  rcases h.map_sound key e hmem with ⟨ho, hk⟩
  refine ⟨ho, ?_⟩
  have hlt := h.lt_heap e ho
  refine ⟨l.heap[e], List.getElem?_eq_getElem hlt, ?_⟩
  have : (l.heap.map CacheItem.key)[e]? = some (l.heap[e]).key := by
    rw [List.getElem?_map, List.getElem?_eq_getElem hlt]; rfl
  rw [this] at hk
  cases hk
  rfl

namespace LRUCache

/-! ## The events of `printList` -/

theorem evictCalls_append (a b : List (Event α)) :
    evictCalls (a ++ b) = evictCalls a ++ evictCalls b := by
  induction a with
  | nil => rfl
  | cons x xs ih =>
    cases x <;> simp [evictCalls, ih]

theorem printFrom_some (heap : List (CacheItem α)) (order : List Nat)
    (h : ∀ e ∈ order, e < heap.length) :
    ∃ out, printFrom heap order = some out ∧ evictCalls out = [] := by
  induction order with
  | nil => exact ⟨[], rfl, rfl⟩
  | cons e rest ih =>
    have he : e < heap.length := h e (List.mem_cons_self _ _)
    rcases ih (fun x hx => h x (List.mem_cons_of_mem _ hx)) with ⟨out, ho, hc⟩
    refine ⟨Event.print (heap[e]).key (heap[e]).value :: out, ?_, ?_⟩
    · simp [printFrom, List.getElem?_eq_getElem he, ho]
    · simp [evictCalls, hc]

/-! ## What `Set` returns, case by case -/

/-- Method `Set` on a key the map holds. -/
theorem Set_hit (l : LRUCache α) (hinv : Inv l) (key : String) (value : Value α) (e : Nat)
    (hget : GoMap.get l.keyMap key = some e) :
    ∃ ev, Set l key value = some (false,
        { maxEntries := l.maxEntries, keyMap := l.keyMap, order := e :: l.order.erase e,
          options := l.options, heap := l.heap.set e { key := key, value := value } }, ev)
      ∧ evictCalls ev = [] := by
  rcases hinv.get_some key e hget with ⟨ho, item, hitem, hkey⟩
  have hitem2 : l.heap[e]? = some { key := key, value := item.value } := by
    rw [hitem, ← hkey]
  have hpr : ∀ x ∈ e :: l.order.erase e,
      x < (l.heap.set e { key := key, value := value }).length := by
    intro x hx
    rw [List.length_set]
    rcases List.mem_cons.1 hx with hx | hx
    · rw [hx]; exact hinv.lt_heap e ho
    · exact hinv.lt_heap x (List.mem_of_mem_erase hx)
  rcases printFrom_some _ _ hpr with ⟨out, hout, hcalls⟩
  cases hlogs : l.options.logs
  · refine ⟨[], ?_, rfl⟩
    simp [Set, hget, hitem2, GoList.MoveToFront, ho, hlogs]
  · refine ⟨Event.log ("Elem " ++ key ++ " updated to the front") :: out, ?_, ?_⟩
    · simp [Set, hget, hitem2, GoList.MoveToFront, ho, hlogs, printList, hout]
    · simp [evictCalls, hcalls]

/-- Method `Set` on a key the map does not hold, in a store that is not full. -/
theorem Set_insert (l : LRUCache α) (hinv : Inv l) (key : String) (value : Value α)
    (hget : GoMap.get l.keyMap key = none)
    (hlt : (GoList.Len l.order : Int) < l.maxEntries) :
    ∃ ev, Set l key value = some (true,
        { maxEntries := l.maxEntries, keyMap := (key, l.heap.length) :: l.keyMap,
          order := l.heap.length :: l.order, options := l.options,
          heap := l.heap ++ [{ key := key, value := value }] }, ev)
      ∧ evictCalls ev = [] := by
  have hdel : GoMap.delete l.keyMap key = l.keyMap :=
    GoMap.delete_eq_self _ _ ((GoMap.get_eq_none_iff _ _).1 hget)
  have hcond : ¬ (l.maxEntries < ((GoList.Len (l.heap.length :: l.order) : Nat) : Int)) := by
    simp only [GoList.Len, List.length_cons] at hlt ⊢
    push_cast
    omega
  have hpr : ∀ x ∈ l.heap.length :: l.order,
      x < (l.heap ++ [({ key := key, value := value } : CacheItem α)]).length := by
    intro x hx
    rw [List.length_append]
    rcases List.mem_cons.1 hx with hx | hx
    · rw [hx]; simp
    · have := hinv.lt_heap x hx
      omega
  rcases printFrom_some _ _ hpr with ⟨out, hout, hcalls⟩
  cases hlogs : l.options.logs
  · refine ⟨[], ?_, rfl⟩
    simp [Set, hget, hcond, hlogs, GoMap.set, hdel, GoList.PushFront]
  · refine ⟨Event.log ("Elem " ++ key ++ " added to the front") :: out, ?_, ?_⟩
    · simp [Set, hget, hcond, hlogs, GoMap.set, hdel, GoList.PushFront, printList, hout]
    · simp [evictCalls, hcalls]

/-- Method `Set` on a key the map does not hold, in a full store. -/
theorem Set_evict (l : LRUCache α) (hinv : Inv l) (key : String) (value : Value α)
    (hget : GoMap.get l.keyMap key = none)
    (hfull : (GoList.Len l.order : Int) = l.maxEntries) :
    ∃ front t item out, l.order = front ++ [t] ∧ l.heap[t]? = some item ∧ item.key ≠ key ∧
      Set l key value = some (true,
        { maxEntries := l.maxEntries,
          keyMap := (key, l.heap.length) :: GoMap.delete l.keyMap item.key,
          order := l.heap.length :: front, options := l.options,
          heap := l.heap ++ [{ key := key, value := value }] },
        (match l.options.evictCallback with
          | some cb => [Event.evict cb item.key item.value
              { maxEntries := l.maxEntries,
                keyMap := (key, l.heap.length) :: GoMap.delete l.keyMap item.key,
                order := l.heap.length :: front, options := l.options,
                heap := l.heap ++ [{ key := key, value := value }] }]
          | none => []) ++ out)
      ∧ evictCalls out = [] := by
  have hdel : GoMap.delete l.keyMap key = l.keyMap :=
    GoMap.delete_eq_self _ _ ((GoMap.get_eq_none_iff _ _).1 hget)
  have hne : l.order ≠ [] := by
    intro h
    have := hinv.cap_pos
    rw [h] at hfull
    simp [GoList.Len] at hfull
    omega
  have hsplit : l.order = l.order.dropLast ++ [l.order.getLast hne] :=
    (List.dropLast_append_getLast hne).symm
  generalize hfr : l.order.dropLast = front at hsplit
  generalize ht : l.order.getLast hne = t at hsplit
  have htmem : t ∈ l.order := by rw [hsplit]; simp
  rcases hinv.deref t htmem with ⟨item, hitem, hmem⟩
  have hkne : item.key ≠ key := by
    intro h
    have : key ∈ GoMap.keys l.keyMap := by
      rw [GoMap.mem_keys_iff]; exact ⟨t, h ▸ hmem⟩
    exact (GoMap.get_eq_none_iff _ _).1 hget this
  have htlt : t < l.heap.length := hinv.lt_heap t htmem
  have hnd : (front ++ [t]).Nodup := hsplit ▸ hinv.order_nodup
  have htfront : t ∉ front := by
    intro h
    have := List.nodup_append.1 hnd
    exact this.2.2 h (List.mem_singleton_self t)
  refine ⟨front, t, item, ?_⟩
  have hcond : l.maxEntries < ((GoList.Len (l.heap.length :: l.order) : Nat) : Int) := by
    simp only [GoList.Len, List.length_cons] at hfull ⊢
    push_cast
    omega
  have hcond2 : l.maxEntries < ((GoList.Len (l.heap.length :: (front ++ [t])) : Nat) : Int) := by
    rw [← hsplit]; exact hcond
  have hback : GoList.Back (l.heap.length :: (front ++ [t])) = some t := by
    simp [GoList.Back, List.getLast?_cons_cons, List.getLast?_eq_getLast]
  have herase : (l.heap.length :: (front ++ [t])).erase t = l.heap.length :: front := by
    have h1 : l.heap.length ≠ t := by omega
    rw [List.erase_cons_tail (by simpa using h1), List.erase_append_right _ htfront]
    simp
  have hitem2 : (l.heap ++ [({ key := key, value := value } : CacheItem α)])[t]? = some item := by
    rw [List.getElem?_append_left htlt]; exact hitem
  have hdel2 : GoMap.delete ((key, l.heap.length) :: l.keyMap) item.key
      = (key, l.heap.length) :: GoMap.delete l.keyMap item.key :=
    GoMap.delete_cons_ne _ _ _ (fun h => hkne h.symm)
  have hpr : ∀ x ∈ l.heap.length :: front,
      x < (l.heap ++ [({ key := key, value := value } : CacheItem α)]).length := by
    intro x hx
    rw [List.length_append]
    rcases List.mem_cons.1 hx with hx | hx
    · rw [hx]; simp
    · have : x ∈ l.order := by rw [hsplit]; simp [hx]
      have := hinv.lt_heap x this
      omega
  rcases printFrom_some _ _ hpr with ⟨out, hout, hcalls⟩
  cases hlogs : l.options.logs
  · refine ⟨[], hsplit, hitem, hkne, ?_, rfl⟩
    cases hcb : l.options.evictCallback <;>
    simp [Set, hget, hcond2, hlogs, GoMap.set, hdel, removeLastElement, removeElement,
      GoList.Remove, hsplit, hback, herase, hitem2, hdel2, hcb, GoList.PushFront]
  · refine ⟨Event.log ("Elem " ++ key ++ " added to the front") :: out, hsplit, hitem, hkne, ?_, ?_⟩
    · cases hcb : l.options.evictCallback <;>
      simp [Set, hget, hcond2, hlogs, GoMap.set, hdel, removeLastElement, removeElement,
        GoList.Remove, hsplit, hback, herase, hitem2, hdel2, hcb, GoList.PushFront, printList,
        hout]
    · simp [evictCalls, hcalls]

end LRUCache

/-! ## The invariant is established by `NewLRUCache` and kept by `Set` -/

theorem set_eq_self_of_getElem? {β : Type} (xs : List β) (i : Nat) (a : β)
    (h : xs[i]? = some a) : xs.set i a = xs := by
  apply List.ext_getElem?
  intro j
  by_cases hj : i = j
  · subst hj
    have hlt : i < xs.length := (List.getElem?_eq_some_iff.1 h).1
    rw [List.getElem?_set_self hlt, h]
  · rw [List.getElem?_set_ne hj]

theorem heapKeys_set (heap : List (CacheItem α)) (e : Nat) (key : String) (value : Value α)
    (h : (heap.map CacheItem.key)[e]? = some key) :
    (heap.set e { key := key, value := value }).map CacheItem.key = heap.map CacheItem.key := by
  rw [List.map_set]
  exact set_eq_self_of_getElem? _ _ _ h

theorem NewLRUCache_eq (c : Int) (opts : Options) (hc : 0 < c) :
    (NewLRUCache c opts : Option (LRUCache α)) = some
      { maxEntries := c, keyMap := [], order := [], options := opts, heap := [] } := by
  have : ¬ c ≤ 0 := by omega
  simp [NewLRUCache, this]

theorem NewLRUCache_some (c : Int) (opts : Options) (l : LRUCache α)
    (h : NewLRUCache c opts = some l) :
    0 < c ∧ l = { maxEntries := c, keyMap := [], order := [], options := opts, heap := [] } := by
  by_cases hc : c ≤ 0
  · simp [NewLRUCache, hc] at h
  · simp only [NewLRUCache, hc, if_false, Option.some.injEq] at h
    exact ⟨by omega, h.symm⟩

theorem Inv_new (c : Int) (opts : Options) (hc : 0 < c) :
    Inv ({ maxEntries := c, keyMap := [], order := [], options := opts, heap := [] } :
      LRUCache α) where
  cap_pos := hc
  len_le := by simp [GoList.Len]; omega
  order_nodup := List.nodup_nil
  keys_nodup := by simp [GoMap.keys]
  map_sound := by intro k e h; simp at h
  map_complete := by intro e h; simp at h

theorem Inv_hit (l : LRUCache α) (hinv : Inv l) (key : String) (value : Value α) (e : Nat)
    (hget : GoMap.get l.keyMap key = some e) :
    Inv ({ maxEntries := l.maxEntries, keyMap := l.keyMap, order := e :: l.order.erase e,
           options := l.options, heap := l.heap.set e { key := key, value := value } } :
      LRUCache α) := by
  have hmem := GoMap.mem_of_get_eq_some _ _ _ hget
  rcases hinv.map_sound key e hmem with ⟨ho, hk⟩
  have hkeys := heapKeys_set l.heap e key value hk
  have hmemiff : ∀ x, x ∈ e :: l.order.erase e ↔ x ∈ l.order := by
    intro x
    by_cases hx : x = e
    · subst hx; simp [ho]
    · simp [hx, List.mem_erase_of_ne hx]
  constructor
  · exact hinv.cap_pos
  · have h1 := hinv.len_le
    have h2 := List.length_erase_of_mem ho
    have h3 : 0 < l.order.length := List.length_pos_of_mem ho
    simp only [GoList.Len, List.length_cons] at h1 ⊢
    rw [h2]
    have : l.order.length - 1 + 1 = l.order.length := by omega
    rw [this]; exact h1
  · refine List.nodup_cons.2 ⟨?_, hinv.order_nodup.erase e⟩
    intro h
    exact ((hinv.order_nodup.mem_erase_iff).1 h).1 rfl
  · exact hinv.keys_nodup
  · intro k x hkx
    rcases hinv.map_sound k x hkx with ⟨h1, h2⟩
    exact ⟨(hmemiff x).2 h1, by simp only [hkeys]; exact h2⟩
  · intro x hx
    rcases hinv.map_complete x ((hmemiff x).1 hx) with ⟨k, h1, h2⟩
    exact ⟨k, by simp only [hkeys]; exact h1, h2⟩

theorem Inv_insert (l : LRUCache α) (hinv : Inv l) (key : String) (value : Value α)
    (hget : GoMap.get l.keyMap key = none)
    (hlt : (GoList.Len l.order : Int) < l.maxEntries) :
    Inv ({ maxEntries := l.maxEntries, keyMap := (key, l.heap.length) :: l.keyMap,
           order := l.heap.length :: l.order, options := l.options,
           heap := l.heap ++ [{ key := key, value := value }] } : LRUCache α) := by
  have hfresh : l.heap.length ∉ l.order := fun h => absurd (hinv.lt_heap _ h) (lt_irrefl _)
  have hnk : key ∉ GoMap.keys l.keyMap := (GoMap.get_eq_none_iff _ _).1 hget
  have hold : ∀ (x : Nat) (k : String), (l.heap.map CacheItem.key)[x]? = some k →
      ((l.heap ++ [({ key := key, value := value } : CacheItem α)]).map CacheItem.key)[x]?
        = some k := by
    intro x k h
    have hx : x < (l.heap.map CacheItem.key).length := (List.getElem?_eq_some_iff.1 h).1
    rw [List.map_append, List.getElem?_append_left hx]; exact h
  have hnew : ((l.heap ++ [({ key := key, value := value } : CacheItem α)]).map
      CacheItem.key)[l.heap.length]? = some key := by
    rw [List.map_append, List.getElem?_append_right (by simp)]
    simp
  constructor
  · exact hinv.cap_pos
  · simp only [GoList.Len, List.length_cons] at hlt ⊢
    push_cast
    omega
  · exact List.nodup_cons.2 ⟨hfresh, hinv.order_nodup⟩
  · simp only [GoMap.keys, List.map_cons]
    exact List.nodup_cons.2 ⟨hnk, hinv.keys_nodup⟩
  · intro k x hkx
    rcases List.mem_cons.1 hkx with h | h
    · cases h
      exact ⟨List.mem_cons_self _ _, hnew⟩
    · rcases hinv.map_sound k x h with ⟨h1, h2⟩
      exact ⟨List.mem_cons_of_mem _ h1, hold x k h2⟩
  · intro x hx
    rcases List.mem_cons.1 hx with h | h
    · subst h
      exact ⟨key, hnew, List.mem_cons_self _ _⟩
    · rcases hinv.map_complete x h with ⟨k, h1, h2⟩
      exact ⟨k, hold x k h1, List.mem_cons_of_mem _ h2⟩

theorem Inv_evict (l : LRUCache α) (hinv : Inv l) (key : String) (value : Value α)
    (front : List Nat) (t : Nat) (item : CacheItem α)
    (hget : GoMap.get l.keyMap key = none)
    (hsplit : l.order = front ++ [t]) (hitem : l.heap[t]? = some item) :
    Inv ({ maxEntries := l.maxEntries,
           keyMap := (key, l.heap.length) :: GoMap.delete l.keyMap item.key,
           order := l.heap.length :: front, options := l.options,
           heap := l.heap ++ [{ key := key, value := value }] } : LRUCache α) := by
  have hnk : key ∉ GoMap.keys l.keyMap := (GoMap.get_eq_none_iff _ _).1 hget
  have hsub : ∀ x, x ∈ front → x ∈ l.order := by
    intro x hx; rw [hsplit]; simp [hx]
  have htmem : t ∈ l.order := by rw [hsplit]; simp
  have hfresh : l.heap.length ∉ front :=
    fun h => absurd (hinv.lt_heap _ (hsub _ h)) (lt_irrefl _)
  have hnd : (front ++ [t]).Nodup := hsplit ▸ hinv.order_nodup
  have htfront : t ∉ front := by
    intro h
    exact (List.nodup_append.1 hnd).2.2 h (List.mem_singleton_self t)
  have htkey : (l.heap.map CacheItem.key)[t]? = some item.key := by
    rw [List.getElem?_map, hitem]; rfl
  have hold : ∀ (x : Nat) (k : String), (l.heap.map CacheItem.key)[x]? = some k →
      ((l.heap ++ [({ key := key, value := value } : CacheItem α)]).map CacheItem.key)[x]?
        = some k := by
    intro x k h
    have hx : x < (l.heap.map CacheItem.key).length := (List.getElem?_eq_some_iff.1 h).1
    rw [List.map_append, List.getElem?_append_left hx]; exact h
  have hnew : ((l.heap ++ [({ key := key, value := value } : CacheItem α)]).map
      CacheItem.key)[l.heap.length]? = some key := by
    rw [List.map_append, List.getElem?_append_right (by simp)]
    simp
  constructor
  · exact hinv.cap_pos
  · have h1 := hinv.len_le
    rw [hsplit] at h1
    simp only [GoList.Len, List.length_cons, List.length_append, List.length_nil] at h1 ⊢
    exact h1
  · exact List.nodup_cons.2 ⟨hfresh, (List.nodup_append.1 hnd).1⟩
  · simp only [GoMap.keys, List.map_cons]
    refine List.nodup_cons.2 ⟨?_, GoMap.keys_delete_nodup _ _ hinv.keys_nodup⟩
    intro h
    rcases (GoMap.mem_keys_iff _ _).1 h with ⟨x, hx⟩
    exact hnk ((GoMap.mem_keys_iff _ _).2 ⟨x, ((GoMap.mem_delete _ _ _).1 hx).1⟩)
  · intro k x hkx
    rcases List.mem_cons.1 hkx with h | h
    · cases h
      exact ⟨List.mem_cons_self _ _, hnew⟩
    · rcases (GoMap.mem_delete _ _ _).1 h with ⟨h0, hne⟩
      rcases hinv.map_sound k x h0 with ⟨h1, h2⟩
      refine ⟨List.mem_cons_of_mem _ ?_, hold x k h2⟩
      rw [hsplit] at h1
      rcases List.mem_append.1 h1 with h3 | h3
      · exact h3
      · exfalso
        have hxt : x = t := by simpa using h3
        subst hxt
        rw [htkey] at h2
        exact hne (Option.some.inj h2).symm
  · intro x hx
    rcases List.mem_cons.1 hx with h | h
    · subst h
      exact ⟨key, hnew, List.mem_cons_self _ _⟩
    · rcases hinv.map_complete x (hsub x h) with ⟨k, h1, h2⟩
      refine ⟨k, hold x k h1, List.mem_cons_of_mem _ ((GoMap.mem_delete _ _ _).2 ⟨h2, ?_⟩)⟩
      intro hk
      have hk2 : k = item.key := hk
      subst hk2
      -- two bindings of the same key point to the same element
      have h4 := GoMap.get_eq_some_of_mem _ _ _ hinv.keys_nodup h2
      have h5 := GoMap.get_eq_some_of_mem _ _ _ hinv.keys_nodup
        ((hinv.deref t htmem).elim (fun it hit => by
          rcases hit with ⟨hit1, hit2⟩
          rw [hitem] at hit1
          cases hit1
          exact hit2))
      rw [h4] at h5
      have hxt : x = t := Option.some.inj h5
      exact htfront (hxt ▸ h)

/-! ## The entries of the ordered sequence -/

theorem filterMap_erase {β : Type} (f : Nat → Option β) (p : β → Bool) (xs : List Nat)
    (e : Nat) (hnd : xs.Nodup)
    (h : ∀ x ∈ xs, ∀ b, f x = some b → (p b = true ↔ x ≠ e)) :
    (xs.erase e).filterMap f = (xs.filterMap f).filter p := by
  induction xs with
  | nil => simp
  | cons x xs ih =>
    rcases List.nodup_cons.1 hnd with ⟨hx, hnd2⟩
    have ih2 := ih hnd2 (fun y hy => h y (List.mem_cons_of_mem _ hy))
    by_cases hxe : x = e
    · subst hxe
      have h1 : (x :: xs).erase x = xs := by simp
      rw [h1]
      rw [List.erase_of_not_mem hx] at ih2
      cases hf : f x with
      | none => rw [List.filterMap_cons_none hf]; exact ih2
      | some b =>
        have hp : ¬ p b = true := by
          intro hp
          exact ((h x (List.mem_cons_self _ _) b hf).1 hp) rfl
        rw [List.filterMap_cons_some hf, List.filter_cons_of_neg hp]
        exact ih2
    · have h1 : (x :: xs).erase e = x :: xs.erase e :=
        List.erase_cons_tail (by simpa using hxe)
      rw [h1]
      cases hf : f x with
      | none => rw [List.filterMap_cons_none hf, List.filterMap_cons_none hf]; exact ih2
      | some b =>
        have hp : p b = true := (h x (List.mem_cons_self _ _) b hf).2 hxe
        rw [List.filterMap_cons_some hf, List.filterMap_cons_some hf,
          List.filter_cons_of_pos hp, ih2]

theorem filterMap_eq_map_getD {β γ : Type} (f : β → Option γ) (d : γ) (xs : List β)
    (h : ∀ x ∈ xs, ∃ b, f x = some b) :
    xs.filterMap f = xs.map (fun x => (f x).getD d) := by
  induction xs with
  | nil => rfl
  | cons x xs ih =>
    rcases h x (List.mem_cons_self _ _) with ⟨b, hb⟩
    rw [List.filterMap_cons_some hb, List.map_cons, hb,
      ih (fun y hy => h y (List.mem_cons_of_mem _ hy))]
    rfl

namespace LRUCache

theorem entries_eq_map (l : LRUCache α) (hinv : Inv l) :
    entries l = l.order.map (fun e => (l.heap[e]?).getD { key := "", value := Value.nil }) := by
  unfold entries
  apply filterMap_eq_map_getD
  intro x hx
  rcases hinv.deref x hx with ⟨item, h, _⟩
  exact ⟨item, h⟩

theorem entries_length (l : LRUCache α) (hinv : Inv l) :
    (entries l).length = l.order.length := by
  rw [entries_eq_map l hinv, List.length_map]

/-- An entry is in the sequence exactly when the map binds its key to the
element that holds it. -/
theorem mem_entries_iff (l : LRUCache α) (hinv : Inv l) (item : CacheItem α) :
    item ∈ entries l ↔ ∃ e, GoMap.get l.keyMap item.key = some e ∧ l.heap[e]? = some item := by
  unfold entries
  rw [List.mem_filterMap]
  constructor
  · rintro ⟨e, he, hitem⟩
    rcases hinv.deref e he with ⟨item2, h2, hmem⟩
    rw [hitem] at h2
    cases h2
    exact ⟨e, GoMap.get_eq_some_of_mem _ _ _ hinv.keys_nodup hmem, hitem⟩
  · rintro ⟨e, hget, hitem⟩
    exact ⟨e, (hinv.get_some _ _ hget).1, hitem⟩

theorem mem_orderKeys_iff (l : LRUCache α) (hinv : Inv l) (key : String) :
    key ∈ orderKeys l ↔ key ∈ GoMap.keys l.keyMap := by
  unfold orderKeys
  rw [List.mem_map]
  constructor
  · rintro ⟨item, hmem, hkey⟩
    rcases (mem_entries_iff l hinv item).1 hmem with ⟨e, hget, _⟩
    rw [hkey] at hget
    exact (GoMap.mem_keys_iff _ _).2 ⟨e, GoMap.mem_of_get_eq_some _ _ _ hget⟩
  · intro h
    rcases (GoMap.mem_keys_iff _ _).1 h with ⟨e, he⟩
    have hget := GoMap.get_eq_some_of_mem _ _ _ hinv.keys_nodup he
    rcases hinv.get_some key e hget with ⟨_, item, hitem, hkey⟩
    refine ⟨item, (mem_entries_iff l hinv item).2 ⟨e, ?_, hitem⟩, hkey⟩
    rw [hkey]; exact hget

theorem entries_key_inj (l : LRUCache α) (hinv : Inv l) (a b : CacheItem α)
    (ha : a ∈ entries l) (hb : b ∈ entries l) (hk : a.key = b.key) : a = b := by
  rcases (mem_entries_iff l hinv a).1 ha with ⟨e1, h1, h2⟩
  rcases (mem_entries_iff l hinv b).1 hb with ⟨e2, h3, h4⟩
  rw [hk, h3] at h1
  cases h1
  rw [h4] at h2
  exact (Option.some.inj h2).symm

theorem entries_hit (l : LRUCache α) (hinv : Inv l) (key : String) (value : Value α) (e : Nat)
    (hget : GoMap.get l.keyMap key = some e) :
    entries ({ maxEntries := l.maxEntries, keyMap := l.keyMap, order := e :: l.order.erase e,
               options := l.options, heap := l.heap.set e { key := key, value := value } } :
      LRUCache α)
    = { key := key, value := value } ::
        (entries l).filter (fun item => decide (item.key ≠ key)) := by
  rcases hinv.get_some key e hget with ⟨ho, item, hitem, hkey⟩
  have hlt := hinv.lt_heap e ho
  have hhead : (l.heap.set e ({ key := key, value := value } : CacheItem α))[e]?
      = some { key := key, value := value } := List.getElem?_set_self hlt
  have hrest : (l.order.erase e).filterMap
        (fun x => (l.heap.set e ({ key := key, value := value } : CacheItem α))[x]?)
      = (l.order.erase e).filterMap (fun x => l.heap[x]?) := by
    apply List.filterMap_congr
    intro x hx
    have hne : e ≠ x := by
      intro h
      subst h
      exact ((hinv.order_nodup.mem_erase_iff).1 hx).1 rfl
    exact List.getElem?_set_ne hne
  unfold entries
  simp only []
  rw [List.filterMap_cons_some hhead, hrest]
  congr 1
  apply filterMap_erase _ _ _ _ hinv.order_nodup
  intro x hx b hb
  simp only [ne_eq, decide_eq_true_eq]
  constructor
  · intro h1 h2
    subst h2
    rw [hitem] at hb
    cases hb
    exact h1 hkey
  · intro h1 h2
    apply h1
    rcases hinv.deref x hx with ⟨item2, h3, h4⟩
    rw [hb] at h3
    cases h3
    rw [h2] at h4
    have := GoMap.get_eq_some_of_mem _ _ _ hinv.keys_nodup h4
    rw [hget] at this
    exact (Option.some.inj this).symm

theorem entries_push (l : LRUCache α) (hinv : Inv l) (key : String) (value : Value α)
    (km : List (String × Nat)) (front : List Nat) (hsub : ∀ x ∈ front, x ∈ l.order) :
    entries ({ maxEntries := l.maxEntries, keyMap := km,
               order := l.heap.length :: front, options := l.options,
               heap := l.heap ++ [{ key := key, value := value }] } : LRUCache α)
    = { key := key, value := value } :: front.filterMap (fun x => l.heap[x]?) := by
  have hhead : (l.heap ++ [({ key := key, value := value } : CacheItem α)])[l.heap.length]?
      = some { key := key, value := value } := by
    rw [List.getElem?_append_right (le_refl _)]
    simp
  have hrest : front.filterMap
        (fun x => (l.heap ++ [({ key := key, value := value } : CacheItem α)])[x]?)
      = front.filterMap (fun x => l.heap[x]?) := by
    apply List.filterMap_congr
    intro x hx
    exact List.getElem?_append_left (hinv.lt_heap x (hsub x hx))
  unfold entries
  simp only []
  rw [List.filterMap_cons_some hhead, hrest]

theorem entries_insert (l : LRUCache α) (hinv : Inv l) (key : String) (value : Value α) :
    entries ({ maxEntries := l.maxEntries, keyMap := (key, l.heap.length) :: l.keyMap,
               order := l.heap.length :: l.order, options := l.options,
               heap := l.heap ++ [{ key := key, value := value }] } : LRUCache α)
    = { key := key, value := value } :: entries l :=
  entries_push l hinv key value _ l.order (fun _ h => h)

theorem entries_evict (l : LRUCache α) (hinv : Inv l) (key : String) (value : Value α)
    (front : List Nat) (t : Nat) (item : CacheItem α)
    (hsplit : l.order = front ++ [t]) (hitem : l.heap[t]? = some item) :
    entries l = front.filterMap (fun x => l.heap[x]?) ++ [item] ∧
    entries ({ maxEntries := l.maxEntries,
               keyMap := (key, l.heap.length) :: GoMap.delete l.keyMap item.key,
               order := l.heap.length :: front, options := l.options,
               heap := l.heap ++ [{ key := key, value := value }] } : LRUCache α)
    = { key := key, value := value } :: front.filterMap (fun x => l.heap[x]?) := by
  constructor
  · unfold entries
    rw [hsplit, List.filterMap_append]
    congr 1
    exact List.filterMap_cons_some hitem
  · exact entries_push l hinv key value _ front (fun x hx => by rw [hsplit]; simp [hx])

/-! ## The size of the map -/

theorem map_len_eq (l : LRUCache α) (hinv : Inv l) :
    GoMap.len l.keyMap = GoList.Len l.order := by
  have hnd1 : l.keyMap.Nodup := List.Nodup.of_map Prod.fst hinv.keys_nodup
  have hnd2 : (l.keyMap.map Prod.snd).Nodup := by
    apply List.Nodup.map_on _ hnd1
    intro a ha b hb hab
    have h1 := (hinv.map_sound a.1 a.2 ha).2
    have h2 := (hinv.map_sound b.1 b.2 hb).2
    rw [hab, h2] at h1
    exact Prod.ext (Option.some.inj h1).symm hab
  have hperm : List.Perm (l.keyMap.map Prod.snd) l.order := by
    rw [List.perm_ext_iff_of_nodup hnd2 hinv.order_nodup]
    intro e
    constructor
    · intro h
      rcases List.mem_map.1 h with ⟨kv, hkv, rfl⟩
      exact (hinv.map_sound kv.1 kv.2 hkv).1
    · intro h
      rcases hinv.map_complete e h with ⟨k, _, hk⟩
      exact List.mem_map.2 ⟨(k, e), hk, rfl⟩
  have := hperm.length_eq
  simpa [GoMap.len, GoList.Len] using this

/-! ## What `Get` returns -/

theorem Get_miss (l : LRUCache α) (key : String) (h : GoMap.get l.keyMap key = none) :
    Get l key = some (Value.nil, l, []) := by
  simp [Get, h]

theorem Get_hit (l : LRUCache α) (hinv : Inv l) (key : String) (e : Nat)
    (h : GoMap.get l.keyMap key = some e) :
    ∃ item, l.heap[e]? = some item ∧ item.key = key ∧ item ∈ entries l ∧
      Get l key = some (item.value, l, []) := by
  rcases hinv.get_some key e h with ⟨_, item, hitem, hkey⟩
  refine ⟨item, hitem, hkey, (mem_entries_iff l hinv item).2 ⟨e, hkey ▸ h, hitem⟩, ?_⟩
  simp [Get, h, hitem]

theorem Get_unchanged (l : LRUCache α) (key : String) (v : Value α) (l1 : LRUCache α)
    (ev : List (Event α)) (h : Get l key = some (v, l1, ev)) : l1 = l ∧ ev = [] := by
  unfold Get at h
  cases hg : GoMap.get l.keyMap key with
  | none =>
    rw [hg] at h
    simp only [Option.some.injEq, Prod.mk.injEq] at h
    exact ⟨h.2.1.symm, h.2.2.symm⟩
  | some e =>
    rw [hg] at h
    simp only at h
    cases hh : l.heap[e]? with
    | none => rw [hh] at h; simp at h
    | some item =>
      rw [hh] at h
      simp only [Option.some.injEq, Prod.mk.injEq] at h
      exact ⟨h.2.1.symm, h.2.2.symm⟩

theorem Get_total (l : LRUCache α) (hinv : Inv l) (key : String) :
    ∃ v, Get l key = some (v, l, []) := by
  cases hg : GoMap.get l.keyMap key with
  | none => exact ⟨Value.nil, Get_miss l key hg⟩
  | some e =>
    rcases Get_hit l hinv key e hg with ⟨item, _, _, _, h⟩
    exact ⟨item.value, h⟩

/-! ## `Set`, all cases together -/

theorem len_cases {l : LRUCache α} (hinv : Inv l) :
    (GoList.Len l.order : Int) < l.maxEntries ∨ (GoList.Len l.order : Int) = l.maxEntries := by
  have := hinv.len_le
  omega

theorem filter_key_eq_self (l : LRUCache α) (hinv : Inv l) (key : String)
    (hget : GoMap.get l.keyMap key = none) :
    (entries l).filter (fun item => decide (item.key ≠ key)) = entries l := by
  rw [List.filter_eq_self]
  intro item hitem
  have h1 : key ∉ orderKeys l := by
    rw [mem_orderKeys_iff l hinv]
    exact (GoMap.get_eq_none_iff _ _).1 hget
  have : item.key ≠ key := by
    intro h
    apply h1
    rw [← h]
    exact List.mem_map_of_mem CacheItem.key hitem
  simpa using this

/-- Method `Set` returns, keeps the invariant, the capacity and the options, reports
whether the key was new, and puts the entry at the front of what was there. -/
theorem Set_spec (l : LRUCache α) (hinv : Inv l) (key : String) (value : Value α) :
    ∃ b l1 ev, Set l key value = some (b, l1, ev) ∧ Inv l1 ∧
      l1.maxEntries = l.maxEntries ∧ l1.options = l.options ∧
      (b = true ↔ GoMap.get l.keyMap key = none) ∧
      ∃ rest, entries l1 = { key := key, value := value } :: rest ∧
        List.Sublist rest ((entries l).filter (fun item => decide (item.key ≠ key))) := by
  cases hget : GoMap.get l.keyMap key with
  | some e =>
    rcases Set_hit l hinv key value e hget with ⟨ev, hset, _⟩
    exact ⟨false, _, ev, hset, Inv_hit l hinv key value e hget, rfl, rfl, by simp,
      _, entries_hit l hinv key value e hget, List.Sublist.refl _⟩
  | none =>
    rcases len_cases hinv with hlt | hfull
    · rcases Set_insert l hinv key value hget hlt with ⟨ev, hset, _⟩
      refine ⟨true, _, ev, hset, Inv_insert l hinv key value hget hlt, rfl, rfl, by simp,
        _, entries_insert l hinv key value, ?_⟩
      rw [filter_key_eq_self l hinv key hget]
    · rcases Set_evict l hinv key value hget hfull with ⟨front, t, item, out, hs, hi, _, hset, _⟩
      rcases entries_evict l hinv key value front t item hs hi with ⟨h1, h2⟩
      refine ⟨true, _, _, hset, Inv_evict l hinv key value front t item hget hs hi, rfl, rfl,
        by simp, _, h2, ?_⟩
      rw [filter_key_eq_self l hinv key hget, h1]
      exact List.sublist_append_left _ _

/-! ## Sequences of calls -/

theorem step_spec (l : LRUCache α) (hinv : Inv l) (op : Op α) :
    ∃ r l1 ev, step l op = some (r, l1, ev) ∧ Inv l1 ∧
      l1.maxEntries = l.maxEntries ∧ l1.options = l.options := by
  cases op with
  | set key value =>
    rcases Set_spec l hinv key value with ⟨b, l1, ev, h, hi, hm, ho, _⟩
    exact ⟨Ret.set b, l1, ev, by simp [step, h], hi, hm, ho⟩
  | get key =>
    rcases Get_total l hinv key with ⟨v, h⟩
    exact ⟨Ret.get v, l, [], by simp [step, h], hinv, rfl, rfl⟩

theorem step_inv (l : LRUCache α) (hinv : Inv l) (op : Op α) (r : Ret α) (l1 : LRUCache α)
    (ev : List (Event α)) (h : step l op = some (r, l1, ev)) :
    Inv l1 ∧ l1.maxEntries = l.maxEntries ∧ l1.options = l.options := by
  rcases step_spec l hinv op with ⟨r2, l2, ev2, h2, hi, hm, ho⟩
  rw [h] at h2
  cases h2
  exact ⟨hi, hm, ho⟩

theorem run_spec (l : LRUCache α) (hinv : Inv l) (ops : List (Op α)) :
    ∃ rs l1 ev, run l ops = some (rs, l1, ev) ∧ Inv l1 ∧
      l1.maxEntries = l.maxEntries ∧ l1.options = l.options := by
  induction ops generalizing l with
  | nil => exact ⟨[], l, [], rfl, hinv, rfl, rfl⟩
  | cons op ops ih =>
    rcases step_spec l hinv op with ⟨r, l1, ev1, h1, hi1, hm1, ho1⟩
    rcases ih l1 hi1 with ⟨rs, l2, ev2, h2, hi2, hm2, ho2⟩
    exact ⟨r :: rs, l2, ev1 ++ ev2, by simp [run, h1, h2], hi2, hm2.trans hm1, ho2.trans ho1⟩

theorem run_inv (l : LRUCache α) (hinv : Inv l) (ops : List (Op α)) (rs : List (Ret α))
    (l1 : LRUCache α) (ev : List (Event α)) (h : run l ops = some (rs, l1, ev)) :
    Inv l1 ∧ l1.maxEntries = l.maxEntries ∧ l1.options = l.options := by
  rcases run_spec l hinv ops with ⟨rs2, l2, ev2, h2, hi, hm, ho⟩
  rw [h] at h2
  cases h2
  exact ⟨hi, hm, ho⟩

theorem run_snoc (l : LRUCache α) (ops : List (Op α)) (op : Op α) (rs : List (Ret α))
    (l1 : LRUCache α) (ev : List (Event α)) (r : Ret α) (l2 : LRUCache α)
    (ev2 : List (Event α)) (h1 : run l ops = some (rs, l1, ev))
    (h2 : step l1 op = some (r, l2, ev2)) :
    run l (ops ++ [op]) = some (rs ++ [r], l2, ev ++ ev2) := by
  induction ops generalizing l rs ev with
  | nil =>
    simp only [run, Option.some.injEq, Prod.mk.injEq] at h1
    rcases h1 with ⟨rfl, rfl, rfl⟩
    simp [run, h2]
  | cons o ops ih =>
    simp only [run] at h1
    cases hs : step l o with
    | none => rw [hs] at h1; simp at h1
    | some x =>
      rcases x with ⟨r0, l0, ev0⟩
      rw [hs] at h1
      simp only at h1
      cases hr : run l0 ops with
      | none => rw [hr] at h1; simp at h1
      | some y =>
        rcases y with ⟨rs0, l3, ev3⟩
        rw [hr] at h1
        simp only [Option.some.injEq, Prod.mk.injEq] at h1
        rcases h1 with ⟨rfl, rfl, rfl⟩
        have := ih l0 rs0 ev3 hr
        simp [run, hs, this]

end LRUCache

/-! ## Reachable stores -/

theorem Reachable.inv {l : LRUCache α} (h : Reachable l) : Inv l := by
  induction h with
  | new c opts l h =>
    rcases NewLRUCache_some c opts l h with ⟨hc, rfl⟩
    exact Inv_new c opts hc
  | step l op r l1 ev _ h ih => exact (LRUCache.step_inv l ih op r l1 ev h).1

theorem Reachable.run {l : LRUCache α} (h : Reachable l) (ops : List (Op α))
    (rs : List (Ret α)) (l1 : LRUCache α) (ev : List (Event α))
    (hr : LRUCache.run l ops = some (rs, l1, ev)) : Reachable l1 := by
  induction ops generalizing l rs ev with
  | nil =>
    simp only [LRUCache.run, Option.some.injEq, Prod.mk.injEq] at hr
    rw [← hr.2.1]; exact h
  | cons o ops ih =>
    simp only [LRUCache.run] at hr
    cases hs : LRUCache.step l o with
    | none => rw [hs] at hr; simp at hr
    | some x =>
      rcases x with ⟨r0, l0, ev0⟩
      rw [hs] at hr
      simp only at hr
      cases hr2 : LRUCache.run l0 ops with
      | none => rw [hr2] at hr; simp at hr
      | some y =>
        rcases y with ⟨rs0, l3, ev3⟩
        rw [hr2] at hr
        simp only [Option.some.injEq, Prod.mk.injEq] at hr
        rcases hr with ⟨_, rfl, _⟩
        exact ih (Reachable.step l o r0 l0 ev0 h hs) rs0 ev3 hr2

/-- A store is reachable exactly when it is the store after some sequence of
calls on a store returned by `NewLRUCache`. -/
theorem reachable_iff_run (l : LRUCache α) :
    Reachable l ↔ ∃ (c : Int) (opts : Options) (l0 : LRUCache α) (ops : List (Op α))
      (rs : List (Ret α)) (ev : List (Event α)),
      NewLRUCache c opts = some l0 ∧ LRUCache.run l0 ops = some (rs, l, ev) := by
  constructor
  · intro h
    induction h with
    | new c opts l h => exact ⟨c, opts, l, [], [], [], h, rfl⟩
    | step l op r l1 ev _ h ih =>
      rcases ih with ⟨c, opts, l0, ops, rs, ev0, hn, hr⟩
      exact ⟨c, opts, l0, ops ++ [op], rs ++ [r], ev0 ++ ev, hn,
        LRUCache.run_snoc l0 ops op rs l ev0 r l1 ev hr h⟩
  · rintro ⟨c, opts, l0, ops, rs, ev, hn, hr⟩
    exact (Reachable.new c opts l0 hn).run ops rs l ev hr

/-! ## The time of the most recent `Set` -/

theorem lastSet_le (ops : List (Op α)) (key : String) : lastSet ops key ≤ ops.length := by
  induction ops with
  | nil => simp [lastSet]
  | cons op ops ih =>
    unfold lastSet
    by_cases h : lastSet ops key ≠ 0
    · rw [if_pos h, List.length_cons]; omega
    · rw [if_neg h, List.length_cons]
      cases op with
      | set k v => by_cases hk : k = key <;> simp [hk]
      | get k => simp

theorem lastSet_snoc_set (ops : List (Op α)) (k : String) (v : Value α) (key : String) :
    lastSet (ops ++ [Op.set k v]) key = if k = key then ops.length + 1 else lastSet ops key := by
  induction ops with
  | nil => by_cases hk : k = key <;> simp [lastSet, hk]
  | cons op ops ih =>
    rw [List.cons_append]
    by_cases hk : k = key
    · rw [if_pos hk] at ih ⊢
      unfold lastSet
      rw [ih]
      simp
    · rw [if_neg hk] at ih ⊢
      conv_lhs => unfold lastSet
      conv_rhs => unfold lastSet
      rw [ih]

theorem lastSet_snoc_get (ops : List (Op α)) (k : String) (key : String) :
    lastSet (ops ++ [Op.get k]) key = lastSet ops key := by
  induction ops with
  | nil => simp [lastSet]
  | cons op ops ih =>
    rw [List.cons_append]
    conv_lhs => unfold lastSet
    conv_rhs => unfold lastSet
    rw [ih]

namespace LRUCache

theorem run_snoc_inv (l : LRUCache α) (hinv : Inv l) (ops : List (Op α)) (op : Op α)
    (rs : List (Ret α)) (l2 : LRUCache α) (ev : List (Event α))
    (h : run l (ops ++ [op]) = some (rs, l2, ev)) :
    ∃ rs1 l1 ev1 r ev2, run l ops = some (rs1, l1, ev1) ∧ Inv l1 ∧
      step l1 op = some (r, l2, ev2) ∧ rs = rs1 ++ [r] ∧ ev = ev1 ++ ev2 := by
  rcases run_spec l hinv ops with ⟨rs1, l1, ev1, h1, hi1, _, _⟩
  rcases step_spec l1 hi1 op with ⟨r, l3, ev2, h2, _, _, _⟩
  have h3 := run_snoc l ops op rs1 l1 ev1 r l3 ev2 h1 h2
  rw [h] at h3
  simp only [Option.some.injEq, Prod.mk.injEq] at h3
  rcases h3 with ⟨rfl, rfl, rfl⟩
  exact ⟨rs1, l1, ev1, r, ev2, h1, hi1, h2, rfl, rfl⟩

/-- After any calls on a new store, every key in the sequence has been set, and
the keys stand in the order of their most recent `Set`, latest first. -/
theorem run_recent (c : Int) (opts : Options) (l0 : LRUCache α)
    (hn : NewLRUCache c opts = some l0) (ops : List (Op α)) :
    ∀ (rs : List (Ret α)) (l : LRUCache α) (ev : List (Event α)),
      run l0 ops = some (rs, l, ev) →
      (∀ k ∈ orderKeys l, 0 < lastSet ops k) ∧
      (orderKeys l).Pairwise (fun a b => lastSet ops b < lastSet ops a) := by
  rcases NewLRUCache_some c opts l0 hn with ⟨hc, hl0⟩
  have hinv0 : Inv l0 := hl0 ▸ Inv_new c opts hc
  induction ops using List.reverseRecOn with
  | nil =>
    intro rs l ev h
    simp only [run, Option.some.injEq, Prod.mk.injEq] at h
    rw [← h.2.1, hl0]
    simp [orderKeys, entries]
  | append_singleton ops op ih =>
    intro rs l ev h
    rcases run_snoc_inv l0 hinv0 ops op rs l ev h with ⟨rs1, l1, ev1, r, ev2, h1, hi1, h2, _, _⟩
    rcases ih rs1 l1 ev1 h1 with ⟨hpos, hpw⟩
    cases op with
    | get k =>
      have hl : l = l1 := by
        simp only [step] at h2
        cases hg : Get l1 k with
        | none => rw [hg] at h2; simp at h2
        | some x =>
          rcases x with ⟨v, l3, ev3⟩
          rw [hg] at h2
          simp only [Option.some.injEq, Prod.mk.injEq] at h2
          rw [← h2.2.1]
          exact (Get_unchanged l1 k v l3 ev3 hg).1
      subst hl
      constructor
      · intro k2 hk2
        rw [lastSet_snoc_get]; exact hpos k2 hk2
      · refine hpw.imp ?_
        intro a b hab
        rw [lastSet_snoc_get, lastSet_snoc_get]; exact hab
    | set k v =>
      rcases Set_spec l1 hi1 k v with ⟨b, l3, ev3, hs, _, _, _, _, rest, hent, hsub⟩
      have hl : l = l3 := by
        simp only [step, hs, Option.some.injEq, Prod.mk.injEq] at h2
        exact h2.2.1.symm
      subst hl
      have hkeys : orderKeys l = k :: rest.map CacheItem.key := by
        simp [orderKeys, hent]
      have hrest : ∀ k2 ∈ rest.map CacheItem.key, k ≠ k2 ∧ k2 ∈ orderKeys l1 := by
        intro k2 hk2
        rcases List.mem_map.1 hk2 with ⟨item, hitem, rfl⟩
        have h3 := List.mem_filter.1 (hsub.subset hitem)
        refine ⟨?_, List.mem_map_of_mem CacheItem.key h3.1⟩
        have : item.key ≠ k := by simpa using h3.2
        exact fun h4 => this h4.symm
      have hsub2 : List.Sublist (rest.map CacheItem.key) (orderKeys l1) := by
        unfold orderKeys
        exact List.Sublist.map _ (hsub.trans (List.filter_sublist _))
      rw [hkeys]
      constructor
      · intro k2 hk2
        rw [lastSet_snoc_set]
        rcases List.mem_cons.1 hk2 with h3 | h3
        · rw [if_pos h3.symm]; omega
        · rw [if_neg (hrest k2 h3).1]
          exact hpos k2 (hrest k2 h3).2
      · refine List.pairwise_cons.2 ⟨?_, ?_⟩
        · intro k2 hk2
          rw [lastSet_snoc_set, lastSet_snoc_set, if_neg (hrest k2 hk2).1, if_pos rfl]
          have := lastSet_le ops k2
          omega
        · refine (hpw.sublist hsub2).imp_of_mem ?_
          intro a b ha hb hab
          rw [lastSet_snoc_set, lastSet_snoc_set, if_neg (hrest a ha).1, if_neg (hrest b hb).1]
          exact hab

/-! ## Further lemmas for the claims -/

theorem get_none_iff (l : LRUCache α) (hinv : Inv l) (key : String) :
    GoMap.get l.keyMap key = none ↔ key ∉ orderKeys l := by
  rw [GoMap.get_eq_none_iff, mem_orderKeys_iff l hinv]

theorem Get_of_mem_entries (l : LRUCache α) (hinv : Inv l) (item : CacheItem α)
    (h : item ∈ entries l) : Get l item.key = some (item.value, l, []) := by
  rcases (mem_entries_iff l hinv item).1 h with ⟨e, hget, hitem⟩
  simp [Get, hget, hitem]

theorem mem_evictCalls (ev : List (Event α)) (cb : EvictCallback) (key : String)
    (value : Value α) (st : LRUCache α) (h : Event.evict cb key value st ∈ ev) :
    (cb, key, value) ∈ evictCalls ev := by
  induction ev with
  | nil => simp at h
  | cons x xs ih =>
    rcases List.mem_cons.1 h with h1 | h1
    · subst h1; simp [evictCalls]
    · have := ih h1
      cases x <;> simp [evictCalls, this]

theorem run_filter_isSet (l : LRUCache α) (hinv : Inv l) (ops : List (Op α)) :
    ∃ rs l1 ev rs2, run l ops = some (rs, l1, ev) ∧
      run l (ops.filter Op.isSet) = some (rs2, l1, ev) := by
  induction ops generalizing l with
  | nil => exact ⟨[], l, [], [], rfl, rfl⟩
  | cons op ops ih =>
    cases op with
    | set key value =>
      rcases Set_spec l hinv key value with ⟨b, l1, ev1, hs, hi, _⟩
      rcases ih l1 hi with ⟨rs, l2, ev, rs2, h1, h2⟩
      refine ⟨Ret.set b :: rs, l2, ev1 ++ ev, Ret.set b :: rs2, ?_, ?_⟩
      · simp [run, step, hs, h1]
      · simp [List.filter_cons, Op.isSet, run, step, hs, h2]
    | get key =>
      rcases Get_total l hinv key with ⟨v, hg⟩
      rcases ih l hinv with ⟨rs, l2, ev, rs2, h1, h2⟩
      refine ⟨Ret.get v :: rs, l2, ev, rs2, ?_, ?_⟩
      · simp [run, step, hg, h1]
      · simp [List.filter_cons, Op.isSet, h2]

end LRUCache

open LRUCache

/-! ## The claims -/

/-- C1 (capacity invariant): for every capacity `c > 0`, all options and every
sequence `ops` of `Set` and `Get` calls on the store returned by
`NewLRUCache(c, opts)`, after each call (after the first `n` calls, for every
`n`) the calls have returned and the length of the ordered sequence, the number
of its entries and the size of the index are all at most `c`. -/
theorem capacity_invariant (c : Int) (opts : Options) (hc : 0 < c) (ops : List (Op α))
    (n : Nat) :
    ∃ (l0 : LRUCache α) (rs : List (Ret α)) (l : LRUCache α) (ev : List (Event α)),
      NewLRUCache c opts = some l0 ∧ run l0 (ops.take n) = some (rs, l, ev) ∧
      (GoList.Len l.order : Int) ≤ c ∧ ((entries l).length : Int) ≤ c ∧
      (GoMap.len l.keyMap : Int) ≤ c := by
  have hinv0 : Inv (_ : LRUCache α) := Inv_new c opts hc
  rcases run_spec _ hinv0 (ops.take n) with ⟨rs, l, ev, hr, hinv, hm, _⟩
  have hle := hinv.len_le
  rw [hm] at hle
  refine ⟨_, rs, l, ev, NewLRUCache_eq c opts hc, hr, hle, ?_, ?_⟩
  · rw [entries_length l hinv]; exact hle
  · rw [map_len_eq l hinv]; exact hle

/-- Witness of C1: capacity 3 and the calls of `TestSetOutRange` up to `Set(d,5)`;
after these five calls the sequence and the index hold three entries. -/
theorem capacity_invariant_witness :
    (0 : Int) < 3 ∧
    (NewLRUCache 3 testOptions).bind (fun l0 =>
      (run l0 ((testCalls ++ [Op.set "d" (Value.of 5)]).take 5)).map
        (fun r => (GoList.Len r.2.1.order, (entries r.2.1).length, GoMap.len r.2.1.keyMap)))
      = some (3, 3, 3) ∧
    ∃ (l0 : LRUCache Int) (rs : List (Ret Int)) (l : LRUCache Int) (ev : List (Event Int)),
      NewLRUCache 3 testOptions = some l0 ∧
      run l0 ((testCalls ++ [Op.set "d" (Value.of 5)]).take 5) = some (rs, l, ev) ∧
      (GoList.Len l.order : Int) ≤ 3 ∧ ((entries l).length : Int) ≤ 3 ∧
      (GoMap.len l.keyMap : Int) ≤ 3 :=
  ⟨by decide, by decide,
    capacity_invariant 3 testOptions (by decide) (testCalls ++ [Op.set "d" (Value.of 5)]) 5⟩

/-- C2 (eviction correctness): let `l` be the store after the calls `ops` on a
store returned by `NewLRUCache(c, opts)`, holding exactly `c` entries, and let
`key` be a key that is not resident.  Then `Set(key, value)` returns `true`; the
sequence before the call was `front` followed by one tail entry `t`, and after
the call it is the new entry followed by `front`: exactly the tail entry is
removed (its key is no longer in the sequence nor in the index), every other
entry keeps its value and relative order, the new entry is at the head, and the
count is unchanged.  The evicted tail is the resident entry whose most recent
`Set` is the oldest: it has been set, and every other resident entry has been
set later. -/
theorem eviction_correctness (c : Int) (opts : Options) (l0 : LRUCache α)
    (ops : List (Op α)) (rs : List (Ret α)) (l : LRUCache α) (ev : List (Event α))
    (hn : NewLRUCache c opts = some l0) (hr : run l0 ops = some (rs, l, ev))
    (hfull : (GoList.Len l.order : Int) = c)
    (key : String) (value : Value α) (hk : key ∉ orderKeys l) :
    ∃ (front : List (CacheItem α)) (t : CacheItem α) (l1 : LRUCache α) (ev1 : List (Event α)),
      entries l = front ++ [t] ∧
      Set l key value = some (true, l1, ev1) ∧
      entries l1 = { key := key, value := value } :: front ∧
      t.key ∉ orderKeys l1 ∧ GoMap.get l1.keyMap t.key = none ∧
      GoList.Len l1.order = GoList.Len l.order ∧
      GoMap.len l1.keyMap = GoMap.len l.keyMap ∧
      0 < lastSet ops t.key ∧
      (∀ item ∈ front, lastSet ops t.key < lastSet ops item.key) := by
  rcases NewLRUCache_some c opts l0 hn with ⟨hc, hl0⟩
  have hinv0 : Inv l0 := hl0 ▸ Inv_new c opts hc
  rcases run_inv l0 hinv0 ops rs l ev hr with ⟨hinv, hm, _⟩
  have hm2 : l.maxEntries = c := by rw [hm, hl0]
  have hget : GoMap.get l.keyMap key = none := (get_none_iff l hinv key).2 hk
  rcases Set_evict l hinv key value hget (hfull.trans hm2.symm) with
    ⟨fr, t, item, out, hs, hi, hne, hset, _⟩
  rcases entries_evict l hinv key value fr t item hs hi with ⟨h1, h2⟩
  have hinv1 := Inv_evict l hinv key value fr t item hget hs hi
  have hnotin : item.key ∉ orderKeys
      ({ maxEntries := l.maxEntries,
         keyMap := (key, l.heap.length) :: GoMap.delete l.keyMap item.key,
         order := l.heap.length :: fr, options := l.options,
         heap := l.heap ++ [{ key := key, value := value }] } : LRUCache α) := by
    rw [mem_orderKeys_iff _ hinv1]
    simp only [GoMap.keys, List.map_cons, List.mem_cons, not_or]
    exact ⟨hne, GoMap.not_mem_keys_delete _ _⟩
  rcases run_recent c opts l0 hn ops rs l ev hr with ⟨hpos, hpw⟩
  have hkeys : orderKeys l
      = (fr.filterMap (fun x => l.heap[x]?)).map CacheItem.key ++ [item.key] := by
    simp [orderKeys, h1]
  refine ⟨_, item, _, _, h1, hset, h2, hnotin, (get_none_iff _ hinv1 _).2 hnotin,
    ?_, ?_, ?_, ?_⟩
  · simp [GoList.Len, hs]
  · rw [map_len_eq _ hinv1, map_len_eq l hinv]
    simp [GoList.Len, hs]
  · apply hpos
    rw [hkeys]
    simp
  · intro it hit
    rw [hkeys] at hpw
    exact (List.pairwise_append.1 hpw).2.2 it.key (List.mem_map_of_mem CacheItem.key hit)
      item.key (List.mem_singleton_self _)

/-- Witness of C2, the scenario of `TestSetOutRange`: after `Set(a,1)`, `Set(b,2)`,
`Set(c,3)`, `Set(a,4)` on a store of capacity 3 the order is `[a,c,b]`; `Set(d,5)`
gives `[d,a,c]` with `b` evicted, then `Set(e,6)` gives `[e,d,a]` with `c`
evicted. -/
theorem eviction_correctness_witness :
    orderKeys storeACB = ["a", "c", "b"] ∧
    (run storeACB [Op.set "d" (Value.of 5)]).map
        (fun r => (r.1, orderKeys r.2.1, GoMap.keys r.2.1.keyMap))
      = some ([Ret.set true], ["d", "a", "c"], ["d", "c", "a"]) ∧
    (run storeACB [Op.set "d" (Value.of 5), Op.set "e" (Value.of 6)]).map
        (fun r => (r.1, orderKeys r.2.1, GoMap.keys r.2.1.keyMap))
      = some ([Ret.set true, Ret.set true], ["e", "d", "a"], ["e", "d", "a"]) ∧
    ∃ (front : List (CacheItem Int)) (t : CacheItem Int) (l1 : LRUCache Int)
        (ev1 : List (Event Int)),
      entries storeACB = front ++ [t] ∧
      Set storeACB "d" (Value.of 5) = some (true, l1, ev1) ∧
      entries l1 = { key := "d", value := Value.of 5 } :: front ∧
      t.key ∉ orderKeys l1 ∧ GoMap.get l1.keyMap t.key = none ∧
      GoList.Len l1.order = GoList.Len storeACB.order ∧
      GoMap.len l1.keyMap = GoMap.len storeACB.keyMap ∧
      0 < lastSet testCalls t.key ∧
      (∀ item ∈ front, lastSet testCalls t.key < lastSet testCalls item.key) :=
  ⟨by decide, by decide, by decide,
    eviction_correctness 3 testOptions
      { maxEntries := 3, keyMap := [], order := [], options := testOptions, heap := [] }
      testCalls [Ret.set true, Ret.set true, Ret.set true, Ret.set false] storeACB []
      (by decide) (by decide) (by decide) "d" (Value.of 5) (by decide)⟩

/-- C3 (recency ordering): for every capacity `c > 0`, all options and every
sequence `ops` of `Set` and `Get` calls on the store returned by
`NewLRUCache(c, opts)`, the calls return, every key of the ordered sequence has
been set by some call, and from front to back the keys stand in strictly
decreasing order of the position in `ops` of their most recent `Set`.  The `Get`
calls do not affect this: the same calls without the `Get` calls end in the same
store. -/
theorem recency_ordering (c : Int) (opts : Options) (hc : 0 < c) (ops : List (Op α)) :
    ∃ (l0 : LRUCache α) (rs : List (Ret α)) (l : LRUCache α) (ev : List (Event α))
        (rs2 : List (Ret α)),
      NewLRUCache c opts = some l0 ∧ run l0 ops = some (rs, l, ev) ∧
      (∀ k ∈ orderKeys l, 0 < lastSet ops k) ∧
      (orderKeys l).Pairwise (fun a b => lastSet ops b < lastSet ops a) ∧
      run l0 (ops.filter Op.isSet) = some (rs2, l, ev) := by
  have hinv0 : Inv (_ : LRUCache α) := Inv_new c opts hc
  rcases run_filter_isSet _ hinv0 ops with ⟨rs, l, ev, rs2, hr, hr2⟩
  rcases run_recent c opts _ (NewLRUCache_eq c opts hc) ops rs l ev hr with ⟨h1, h2⟩
  exact ⟨_, rs, l, ev, rs2, NewLRUCache_eq c opts hc, hr, h1, h2, hr2⟩

/-- Witness of C3, the scenario of `TestSetOutRange` with capacity 3: `Set(a,1)`,
`Set(b,2)`, `Set(c,3)`, `Set(a,4)` yield the orders `[a]`, `[b,a]`, `[c,b,a]`,
`[a,c,b]`, where `a`, `c`, `b` were last set by the calls 4, 3, 2. -/
theorem recency_ordering_witness :
    (0 : Int) < 3 ∧
    (NewLRUCache 3 testOptions).bind (fun l0 => (run l0 (testCalls.take 1)).map
      (fun r => orderKeys r.2.1)) = some ["a"] ∧
    (NewLRUCache 3 testOptions).bind (fun l0 => (run l0 (testCalls.take 2)).map
      (fun r => orderKeys r.2.1)) = some ["b", "a"] ∧
    (NewLRUCache 3 testOptions).bind (fun l0 => (run l0 (testCalls.take 3)).map
      (fun r => orderKeys r.2.1)) = some ["c", "b", "a"] ∧
    (NewLRUCache 3 testOptions).bind (fun l0 => (run l0 (testCalls.take 4)).map
      (fun r => orderKeys r.2.1)) = some ["a", "c", "b"] ∧
    (["a", "c", "b"].map (lastSet testCalls)) = [4, 3, 2] ∧
    ∃ (l0 : LRUCache Int) (rs : List (Ret Int)) (l : LRUCache Int) (ev : List (Event Int))
        (rs2 : List (Ret Int)),
      NewLRUCache 3 testOptions = some l0 ∧ run l0 testCalls = some (rs, l, ev) ∧
      (∀ k ∈ orderKeys l, 0 < lastSet testCalls k) ∧
      (orderKeys l).Pairwise (fun a b => lastSet testCalls b < lastSet testCalls a) ∧
      run l0 (testCalls.filter Op.isSet) = some (rs2, l, ev) :=
  ⟨by decide, by decide, by decide, by decide, by decide, by decide,
    recency_ordering 3 testOptions (by decide) testCalls⟩

/-- C4 (update semantics): for every reachable store and every resident key,
`Set(key, value)` returns `false`; afterwards `Get(key)` returns `value`, the
entry `(key, value)` is at the front of the ordered sequence followed by all
other entries with their values in their former relative order, the length of
the sequence, the number of entries and the size of the index are unchanged,
the keys of the index are unchanged, and the callback is not called. -/
theorem update_semantics (l : LRUCache α) (h : Reachable l) (key : String) (value : Value α)
    (hk : key ∈ orderKeys l) :
    ∃ (l1 : LRUCache α) (ev : List (Event α)),
      Set l key value = some (false, l1, ev) ∧
      Get l1 key = some (value, l1, []) ∧
      entries l1 = { key := key, value := value } ::
        (entries l).filter (fun item => decide (item.key ≠ key)) ∧
      GoList.Len l1.order = GoList.Len l.order ∧
      (entries l1).length = (entries l).length ∧
      GoMap.len l1.keyMap = GoMap.len l.keyMap ∧
      GoMap.keys l1.keyMap = GoMap.keys l.keyMap ∧
      evictCalls ev = [] := by
  have hinv := h.inv
  cases hget : GoMap.get l.keyMap key with
  | none => exact absurd hk ((get_none_iff l hinv key).1 hget)
  | some e =>
    rcases Set_hit l hinv key value e hget with ⟨ev, hset, hcalls⟩
    have hinv1 := Inv_hit l hinv key value e hget
    have hent := entries_hit l hinv key value e hget
    have hlen : GoList.Len (e :: l.order.erase e) = GoList.Len l.order := by
      have ho := (hinv.get_some key e hget).1
      have h2 := List.length_erase_of_mem ho
      have h3 : 0 < l.order.length := List.length_pos_of_mem ho
      simp only [GoList.Len, List.length_cons]
      omega
    refine ⟨_, ev, hset, ?_, hent, hlen, ?_, rfl, rfl, hcalls⟩
    · have := Get_of_mem_entries _ hinv1 { key := key, value := value }
        (by rw [hent]; exact List.mem_cons_self _ _)
      exact this
    · rw [entries_length _ hinv1, entries_length l hinv]; exact hlen

/-- Witness of C4, the `Set(a,4)` of `TestSetOutRange` on the store with order
`[c,b,a]`, which gives the order `[a,c,b]`. -/
theorem update_semantics_witness :
    (NewLRUCache 3 testOptions).bind (fun l0 => (run l0 (testCalls.take 3)).map
      (fun r => entries r.2.1))
      = some [{ key := "c", value := Value.of 3 }, { key := "b", value := Value.of 2 },
          { key := "a", value := Value.of 1 }] ∧
    (NewLRUCache 3 testOptions).bind (fun l0 => (run l0 (testCalls.take 4)).map
      (fun r => entries r.2.1))
      = some [{ key := "a", value := Value.of 4 }, { key := "c", value := Value.of 3 },
          { key := "b", value := Value.of 2 }] ∧
    ∃ (l1 : LRUCache Int) (ev : List (Event Int)),
      Set storeACB "c" (Value.of 7) = some (false, l1, ev) ∧
      Get l1 "c" = some (Value.of 7, l1, []) ∧
      entries l1 = { key := "c", value := Value.of 7 } ::
        (entries storeACB).filter (fun item => decide (item.key ≠ "c")) ∧
      GoList.Len l1.order = GoList.Len storeACB.order ∧
      (entries l1).length = (entries storeACB).length ∧
      GoMap.len l1.keyMap = GoMap.len storeACB.keyMap ∧
      GoMap.keys l1.keyMap = GoMap.keys storeACB.keyMap ∧
      evictCalls ev = [] :=
  ⟨by decide, by decide,
    update_semantics storeACB
      ((reachable_iff_run storeACB).2 ⟨3, testOptions, _, testCalls, _, _, rfl, rfl⟩)
      "c" (Value.of 7) (by decide)⟩

/-- C5 (insert semantics): for every reachable store with capacity `maxEntries`
and every key and value, `Set(key, value)` returns, and it returns `true` if and
only if the key was not resident before the call.  When the key was not resident
the new entry `(key, value)` is at the front of the ordered sequence, and the
resident count (length of the sequence, size of the index) grows by one when it
was below the capacity and stays equal to the capacity when it was equal to
it. -/
theorem insert_semantics (l : LRUCache α) (h : Reachable l) (key : String)
    (value : Value α) :
    (∃ (b : Bool) (l1 : LRUCache α) (ev : List (Event α)),
      Set l key value = some (b, l1, ev) ∧ (b = true ↔ key ∉ orderKeys l)) ∧
    (key ∉ orderKeys l →
      ∃ (l1 : LRUCache α) (ev : List (Event α)) (rest : List (CacheItem α)),
        Set l key value = some (true, l1, ev) ∧
        entries l1 = { key := key, value := value } :: rest ∧
        l1.maxEntries = l.maxEntries ∧
        ((GoList.Len l.order : Int) < l.maxEntries →
          GoList.Len l1.order = GoList.Len l.order + 1 ∧
          GoMap.len l1.keyMap = GoMap.len l.keyMap + 1) ∧
        ((GoList.Len l.order : Int) = l.maxEntries →
          GoList.Len l1.order = GoList.Len l.order ∧
          GoMap.len l1.keyMap = GoMap.len l.keyMap ∧
          (GoList.Len l1.order : Int) = l1.maxEntries)) := by
  have hinv := h.inv
  constructor
  · rcases Set_spec l hinv key value with ⟨b, l1, ev, hs, _, _, _, hb, _⟩
    exact ⟨b, l1, ev, hs, hb.trans (get_none_iff l hinv key)⟩
  · intro hk
    have hget : GoMap.get l.keyMap key = none := (get_none_iff l hinv key).2 hk
    rcases len_cases hinv with hlt | hfull
    · rcases Set_insert l hinv key value hget hlt with ⟨ev, hset, _⟩
      refine ⟨_, ev, _, hset, entries_insert l hinv key value, rfl, ?_, ?_⟩
      · intro _
        exact ⟨by simp [GoList.Len], by simp [GoMap.len]⟩
      · intro h2
        omega
    · rcases Set_evict l hinv key value hget hfull with ⟨fr, t, item, out, hs, hi, _, hset, _⟩
      have hinv1 := Inv_evict l hinv key value fr t item hget hs hi
      have hlen : GoList.Len (l.heap.length :: fr) = GoList.Len l.order := by
        simp [GoList.Len, hs]
      refine ⟨_, _, _, hset, (entries_evict l hinv key value fr t item hs hi).2, rfl, ?_, ?_⟩
      · intro h2
        omega
      · intro _
        refine ⟨hlen, ?_, ?_⟩
        · rw [map_len_eq _ hinv1, map_len_eq l hinv]; exact hlen
        · show ((GoList.Len (l.heap.length :: fr) : Nat) : Int) = l.maxEntries
          rw [hlen]; exact hfull

/-- Witness of C5: `Set(d,5)` on the full store of `TestSetOutRange` with order
`[a,c,b]`. -/
theorem insert_semantics_witness :
    (∃ (b : Bool) (l1 : LRUCache Int) (ev : List (Event Int)),
      Set storeACB "d" (Value.of 5) = some (b, l1, ev) ∧
      (b = true ↔ "d" ∉ orderKeys storeACB)) ∧
    ("d" ∉ orderKeys storeACB →
      ∃ (l1 : LRUCache Int) (ev : List (Event Int)) (rest : List (CacheItem Int)),
        Set storeACB "d" (Value.of 5) = some (true, l1, ev) ∧
        entries l1 = { key := "d", value := Value.of 5 } :: rest ∧
        l1.maxEntries = storeACB.maxEntries ∧
        ((GoList.Len storeACB.order : Int) < storeACB.maxEntries →
          GoList.Len l1.order = GoList.Len storeACB.order + 1 ∧
          GoMap.len l1.keyMap = GoMap.len storeACB.keyMap + 1) ∧
        ((GoList.Len storeACB.order : Int) = storeACB.maxEntries →
          GoList.Len l1.order = GoList.Len storeACB.order ∧
          GoMap.len l1.keyMap = GoMap.len storeACB.keyMap ∧
          (GoList.Len l1.order : Int) = l1.maxEntries)) :=
  insert_semantics storeACB
    ((reachable_iff_run storeACB).2 ⟨3, testOptions, _, testCalls, _, _, rfl, rfl⟩)
    "d" (Value.of 5)

/-- C6 (Set/Get round trip): for every reachable store (any capacity, full or
not), every key and every value, `Set(key, value)` returns and `Get(key)` on the
store it leaves returns `value`, whether the key was resident or not; the key is
resident after the call, and no call of the eviction callback made by this `Set`
is for the key just set. -/
theorem set_get_round_trip (l : LRUCache α) (h : Reachable l) (key : String)
    (value : Value α) :
    ∃ (b : Bool) (l1 : LRUCache α) (ev : List (Event α)),
      Set l key value = some (b, l1, ev) ∧
      Get l1 key = some (value, l1, []) ∧
      key ∈ orderKeys l1 ∧
      (∀ cb k v st, Event.evict cb k v st ∈ ev → k ≠ key) ∧
      (∀ call ∈ evictCalls ev, call.2.1 ≠ key) := by
  have hinv := h.inv
  have hfin : ∀ (b : Bool) (l1 : LRUCache α) (ev : List (Event α)) (rest : List (CacheItem α)),
      Set l key value = some (b, l1, ev) → Inv l1 →
      entries l1 = { key := key, value := value } :: rest →
      (∀ call ∈ evictCalls ev, call.2.1 ≠ key) →
      ∃ (b : Bool) (l1 : LRUCache α) (ev : List (Event α)),
        Set l key value = some (b, l1, ev) ∧
        Get l1 key = some (value, l1, []) ∧
        key ∈ orderKeys l1 ∧
        (∀ cb k v st, Event.evict cb k v st ∈ ev → k ≠ key) ∧
        (∀ call ∈ evictCalls ev, call.2.1 ≠ key) := by
    intro b l1 ev rest hs hinv1 hent hcalls
    have hmem : ({ key := key, value := value } : CacheItem α) ∈ entries l1 := by
      rw [hent]; exact List.mem_cons_self _ _
    refine ⟨b, l1, ev, hs, Get_of_mem_entries l1 hinv1 _ hmem, ?_, ?_, hcalls⟩
    · exact List.mem_map.2 ⟨_, hmem, rfl⟩
    · intro cb k v st hev
      exact hcalls _ (mem_evictCalls ev cb k v st hev)
  cases hget : GoMap.get l.keyMap key with
  | some e =>
    rcases Set_hit l hinv key value e hget with ⟨ev, hset, hcalls⟩
    exact hfin _ _ _ _ hset (Inv_hit l hinv key value e hget)
      (entries_hit l hinv key value e hget) (by rw [hcalls]; simp)
  | none =>
    rcases len_cases hinv with hlt | hfull
    · rcases Set_insert l hinv key value hget hlt with ⟨ev, hset, hcalls⟩
      exact hfin _ _ _ _ hset (Inv_insert l hinv key value hget hlt)
        (entries_insert l hinv key value) (by rw [hcalls]; simp)
    · rcases Set_evict l hinv key value hget hfull with
        ⟨fr, t, item, out, hs, hi, hne, hset, hout⟩
      refine hfin _ _ _ _ hset (Inv_evict l hinv key value fr t item hget hs hi)
        (entries_evict l hinv key value fr t item hs hi).2 ?_
      intro call hcall
      rw [evictCalls_append, hout, List.append_nil] at hcall
      cases hcb : l.options.evictCallback with
      | none => rw [hcb] at hcall; simp [evictCalls] at hcall
      | some cb =>
        rw [hcb] at hcall
        simp only [evictCalls, List.mem_singleton] at hcall
        rw [hcall]
        exact hne

/-- Witness of C6, the scenario of `TestGet` with capacity 3: after `Set(a,1)`,
`Set(b,2)`, `Set(c,3)`, `Set(a,4)` the call `Get(a)` returns 4; and the round
trip on the full store these calls leave, for the new key `d`. -/
theorem set_get_round_trip_witness :
    (NewLRUCache 3 testOptions).bind (fun l0 => (run l0 (testCalls ++ [Op.get "a"])).map
      (fun r => r.1))
      = some [Ret.set true, Ret.set true, Ret.set true, Ret.set false,
          Ret.get (Value.of 4)] ∧
    ∃ (b : Bool) (l1 : LRUCache Int) (ev : List (Event Int)),
      Set storeACB "d" (Value.of 5) = some (b, l1, ev) ∧
      Get l1 "d" = some (Value.of 5, l1, []) ∧
      "d" ∈ orderKeys l1 ∧
      (∀ cb k v st, Event.evict cb k v st ∈ ev → k ≠ "d") ∧
      (∀ call ∈ evictCalls ev, call.2.1 ≠ "d") :=
  ⟨by decide,
    set_get_round_trip storeACB
      ((reachable_iff_run storeACB).2 ⟨3, testOptions, _, testCalls, _, _, rfl, rfl⟩)
      "d" (Value.of 5)⟩

/-- C7, as stated, fails: `Set("a", nil)` on a new store of capacity 1 returns
`true` and leaves the store `storeNil`, in which `a` is resident (in the ordered
sequence and in the index), and `Get("a")` on it returns nil, the absent
result. -/
theorem get_result_counterexample :
    (NewLRUCache 1 testOptions).bind (fun l0 => run l0 [Op.set "a" Value.nil])
      = some ([Ret.set true], storeNil, []) ∧
    "a" ∈ orderKeys storeNil ∧
    GoMap.get storeNil.keyMap "a" = some 0 ∧
    Get storeNil "a" = some (Value.nil, storeNil, []) := by
  decide

/-- C7, amended (Get result): for every reachable store and every key, `Get(key)`
returns without failing and leaves the store as it is; it returns the value of
the entry of the key when the key is resident, and nil, the absent result, when
it is not; and it returns nil only when the key is not resident or the value
stored under the key is nil itself. -/
theorem get_result (l : LRUCache α) (h : Reachable l) (key : String) :
    (∃ v, Get l key = some (v, l, [])) ∧
    (∀ item ∈ entries l, item.key = key → Get l key = some (item.value, l, [])) ∧
    (key ∉ orderKeys l → Get l key = some (Value.nil, l, [])) ∧
    (Get l key = some (Value.nil, l, []) →
      key ∉ orderKeys l ∨ { key := key, value := Value.nil } ∈ entries l) := by
  have hinv := h.inv
  refine ⟨Get_total l hinv key, ?_, ?_, ?_⟩
  · intro item hitem hkey
    rw [← hkey]
    exact Get_of_mem_entries l hinv item hitem
  · intro hk
    exact Get_miss l key ((get_none_iff l hinv key).2 hk)
  · intro hg
    cases hget : GoMap.get l.keyMap key with
    | none => exact Or.inl ((get_none_iff l hinv key).1 hget)
    | some e =>
      right
      rcases Get_hit l hinv key e hget with ⟨item, _, hkey, hmem, hg2⟩
      rw [hg] at hg2
      simp only [Option.some.injEq, Prod.mk.injEq, and_true] at hg2
      have : item = { key := key, value := Value.nil } := by
        cases item
        simp_all
      rw [← this]
      exact hmem

/-- Witness of C7 as amended, on the store of `TestGet` with order `[a,c,b]`:
`Get(a)` returns 4 and `Get("missing")` returns nil. -/
theorem get_result_witness :
    Get storeACB "a" = some (Value.of 4, storeACB, []) ∧
    Get storeACB "missing" = some (Value.nil, storeACB, []) ∧
    ((∃ v, Get storeACB "a" = some (v, storeACB, [])) ∧
    (∀ item ∈ entries storeACB, item.key = "a" →
      Get storeACB "a" = some (item.value, storeACB, [])) ∧
    ("a" ∉ orderKeys storeACB → Get storeACB "a" = some (Value.nil, storeACB, [])) ∧
    (Get storeACB "a" = some (Value.nil, storeACB, []) →
      "a" ∉ orderKeys storeACB ∨ { key := "a", value := Value.nil } ∈ entries storeACB)) :=
  ⟨by decide, by decide,
    get_result storeACB
      ((reachable_iff_run storeACB).2 ⟨3, testOptions, _, testCalls, _, _, rfl, rfl⟩) "a"⟩

/-- C8 (Get non-mutation): on every store state and for every key, hit or miss,
a `Get(key)` that returns leaves the store exactly as it was (same ordered
sequence, same index, same capacity, same elements) and causes no event; on
every reachable store it does return.  Consequently, for every capacity
`c > 0` and every sequence of `Set` and `Get` calls on a new store, the same
calls without the `Get` calls end in the same store after the same events, so
that every `Set` of the sequence evicts the same entry with or without them. -/
theorem get_non_mutation (l : LRUCache α) (key : String) (c : Int) (opts : Options)
    (hc : 0 < c) (ops : List (Op α)) :
    (Get l key = none ∨ ∃ v, Get l key = some (v, l, [])) ∧
    (Reachable l → ∃ v, Get l key = some (v, l, [])) ∧
    (∃ (l0 : LRUCache α) (rs : List (Ret α)) (l1 : LRUCache α) (ev : List (Event α))
        (rs2 : List (Ret α)),
      NewLRUCache c opts = some l0 ∧ run l0 ops = some (rs, l1, ev) ∧
      run l0 (ops.filter Op.isSet) = some (rs2, l1, ev)) := by
  refine ⟨?_, fun h => Get_total l h.inv key, ?_⟩
  · cases hg : Get l key with
    | none => exact Or.inl rfl
    | some r =>
      rcases r with ⟨v, l1, ev⟩
      rcases Get_unchanged l key v l1 ev hg with ⟨rfl, rfl⟩
      exact Or.inr ⟨v, rfl⟩
  · have hinv0 : Inv (_ : LRUCache α) := Inv_new c opts hc
    rcases run_filter_isSet _ hinv0 ops with ⟨rs, l1, ev, rs2, hr, hr2⟩
    exact ⟨_, rs, l1, ev, rs2, NewLRUCache_eq c opts hc, hr, hr2⟩

/-- Witness of C8: a hit and a miss on the store with order `[a,c,b]`, and the
calls of `TestEvictCallback` with `Get` calls put in between, where the last
`Set` evicts `a` with or without them. -/
theorem get_non_mutation_witness :
    (0 : Int) < 3 ∧
    Get storeACB "a" = some (Value.of 4, storeACB, []) ∧
    Get storeACB "missing" = some (Value.nil, storeACB, []) ∧
    (NewLRUCache 3 callbackOptions).bind (fun l0 =>
      (run l0 [Op.set "a" (Value.of 8), Op.get "a", Op.set "b" (Value.of 16),
        Op.set "c" (Value.of 32), Op.get "a", Op.get "a", Op.set "d" (Value.of 48)]).map
        (fun r => (orderKeys r.2.1, evictCalls r.2.2)))
      = some (["d", "c", "b"], [({ fn := 0 }, "a", Value.of 8)]) ∧
    ((Get storeACB "a" = none ∨ ∃ v, Get storeACB "a" = some (v, storeACB, [])) ∧
    (Reachable storeACB → ∃ v, Get storeACB "a" = some (v, storeACB, [])) ∧
    (∃ (l0 : LRUCache Int) (rs : List (Ret Int)) (l1 : LRUCache Int) (ev : List (Event Int))
        (rs2 : List (Ret Int)),
      NewLRUCache 3 callbackOptions = some l0 ∧
      run l0 [Op.set "a" (Value.of 8), Op.get "a", Op.set "b" (Value.of 16),
        Op.set "c" (Value.of 32), Op.get "a", Op.get "a", Op.set "d" (Value.of 48)]
        = some (rs, l1, ev) ∧
      run l0 (([Op.set "a" (Value.of 8), Op.get "a", Op.set "b" (Value.of 16),
        Op.set "c" (Value.of 32), Op.get "a", Op.get "a", Op.set "d" (Value.of 48)] :
        List (Op Int)).filter Op.isSet) = some (rs2, l1, ev))) :=
  ⟨by decide, by decide, by decide, by decide,
    get_non_mutation storeACB "a" 3 callbackOptions (by decide)
      [Op.set "a" (Value.of 8), Op.get "a", Op.set "b" (Value.of 16),
        Op.set "c" (Value.of 32), Op.get "a", Op.get "a", Op.set "d" (Value.of 48)]⟩

/-- C9 (notifier fidelity): for every reachable store configured with an
eviction callback `cb`, and every call `Set(key, value)`: the call returns; if
it evicts (the key is not resident and the store is full) the callback is called
exactly once, with the key and the value of the entry that was at the tail of
the ordered sequence, which is the entry the call removes; otherwise (update of
a resident key, or insert below the capacity) it is not called and no entry is
removed.  `Get` causes no event at all, so it never calls the callback. -/
theorem notifier_fidelity (l : LRUCache α) (h : Reachable l) (cb : EvictCallback)
    (hcb : l.options.evictCallback = some cb) (key : String) (value : Value α) :
    (∃ (b : Bool) (l1 : LRUCache α) (ev : List (Event α)),
      Set l key value = some (b, l1, ev) ∧
      ((key ∉ orderKeys l ∧ (GoList.Len l.order : Int) = l.maxEntries) →
        ∃ (front : List (CacheItem α)) (t : CacheItem α),
          entries l = front ++ [t] ∧
          entries l1 = { key := key, value := value } :: front ∧
          evictCalls ev = [(cb, t.key, t.value)]) ∧
      (¬ (key ∉ orderKeys l ∧ (GoList.Len l.order : Int) = l.maxEntries) →
        evictCalls ev = [] ∧ (entries l).length ≤ (entries l1).length)) ∧
    (∃ v, Get l key = some (v, l, []) ∧ evictCalls ([] : List (Event α)) = []) := by
  have hinv := h.inv
  refine ⟨?_, ?_⟩
  · cases hget : GoMap.get l.keyMap key with
    | some e =>
      have hres : ¬ key ∉ orderKeys l := by
        rw [← get_none_iff l hinv key, hget]; simp
      rcases Set_hit l hinv key value e hget with ⟨ev, hset, hcalls⟩
      have hinv1 := Inv_hit l hinv key value e hget
      refine ⟨_, _, ev, hset, fun h2 => absurd h2.1 hres, fun _ => ⟨hcalls, ?_⟩⟩
      rw [entries_length _ hinv1, entries_length l hinv]
      have ho := (hinv.get_some key e hget).1
      have h2 := List.length_erase_of_mem ho
      have h3 : 0 < l.order.length := List.length_pos_of_mem ho
      simp only [List.length_cons]
      omega
    | none =>
      have hk : key ∉ orderKeys l := (get_none_iff l hinv key).1 hget
      rcases len_cases hinv with hlt | hfull
      · rcases Set_insert l hinv key value hget hlt with ⟨ev, hset, hcalls⟩
        refine ⟨_, _, ev, hset, fun h2 => ?_, fun _ => ⟨hcalls, ?_⟩⟩
        · have := h2.2
          omega
        · rw [entries_insert l hinv key value]
          simp
      · rcases Set_evict l hinv key value hget hfull with
          ⟨fr, t, item, out, hs, hi, _, hset, hout⟩
        rcases entries_evict l hinv key value fr t item hs hi with ⟨h1, h2⟩
        refine ⟨_, _, _, hset, fun _ => ⟨_, item, h1, h2, ?_⟩, fun h3 => absurd ⟨hk, hfull⟩ h3⟩
        rw [evictCalls_append, hout, List.append_nil, hcb]
        rfl
  · rcases Get_total l hinv key with ⟨v, hv⟩
    exact ⟨v, hv, rfl⟩

/-- Witness of C9, the scenario of `TestEvictCallback` with capacity 3: `Set(a,8)`,
`Set(b,16)`, `Set(c,32)`, `Set(d,48)` call the callback once, with key `a` and
value 8. -/
theorem notifier_fidelity_witness :
    (NewLRUCache 3 callbackOptions).bind (fun l0 =>
      (run l0 callbackCalls).map (fun r => (r.2.1, evictCalls r.2.2)))
      = some (storeCBA, []) ∧
    (NewLRUCache 3 callbackOptions).bind (fun l0 =>
      (run l0 (callbackCalls ++ [Op.set "d" (Value.of 48)])).map
        (fun r => evictCalls r.2.2))
      = some [({ fn := 0 }, "a", Value.of 8)] ∧
    ((∃ (b : Bool) (l1 : LRUCache Int) (ev : List (Event Int)),
      Set storeCBA "d" (Value.of 48) = some (b, l1, ev) ∧
      (("d" ∉ orderKeys storeCBA ∧ (GoList.Len storeCBA.order : Int) = storeCBA.maxEntries) →
        ∃ (front : List (CacheItem Int)) (t : CacheItem Int),
          entries storeCBA = front ++ [t] ∧
          entries l1 = { key := "d", value := Value.of 48 } :: front ∧
          evictCalls ev = [({ fn := 0 }, t.key, t.value)]) ∧
      (¬ ("d" ∉ orderKeys storeCBA ∧
          (GoList.Len storeCBA.order : Int) = storeCBA.maxEntries) →
        evictCalls ev = [] ∧ (entries storeCBA).length ≤ (entries l1).length)) ∧
    (∃ v, Get storeCBA "d" = some (v, storeCBA, []) ∧
      evictCalls ([] : List (Event Int)) = [])) :=
  ⟨by decide, by decide,
    notifier_fidelity storeCBA
      ((reachable_iff_run storeCBA).2 ⟨3, callbackOptions, _, callbackCalls, _, _, rfl, rfl⟩)
      { fn := 0 } rfl "d" (Value.of 48)⟩

/-- C10 (index/sequence consistency): for every capacity `c > 0`, all options and
every sequence of `Set` and `Get` calls on the store returned by
`NewLRUCache(c, opts)`, the calls return and in the store they leave a key is
present in the index `keyMap` if and only if some entry of the ordered sequence
carries that key: the index and the sequence have the same set of keys, and the
lookup of a key in the index succeeds exactly for these keys. -/
theorem index_sequence_consistency (c : Int) (opts : Options) (hc : 0 < c)
    (ops : List (Op α)) :
    ∃ (l0 : LRUCache α) (rs : List (Ret α)) (l : LRUCache α) (ev : List (Event α)),
      NewLRUCache c opts = some l0 ∧ run l0 ops = some (rs, l, ev) ∧
      (∀ key, key ∈ GoMap.keys l.keyMap ↔ key ∈ orderKeys l) ∧
      (∀ key, (∃ e, GoMap.get l.keyMap key = some e) ↔
        ∃ item ∈ entries l, item.key = key) := by
  have hinv0 : Inv (_ : LRUCache α) := Inv_new c opts hc
  rcases run_spec _ hinv0 ops with ⟨rs, l, ev, hr, hinv, _, _⟩
  refine ⟨_, rs, l, ev, NewLRUCache_eq c opts hc, hr,
    fun key => (mem_orderKeys_iff l hinv key).symm, fun key => ?_⟩
  have h1 : (∃ e, GoMap.get l.keyMap key = some e) ↔ ¬ GoMap.get l.keyMap key = none := by
    cases GoMap.get l.keyMap key <;> simp
  have h2 : (∃ item ∈ entries l, item.key = key) ↔ key ∈ orderKeys l := by
    unfold orderKeys
    rw [List.mem_map]
  rw [h1, h2, get_none_iff l hinv key, not_not]

/-- Witness of C10: the calls of `TestSetOutRange`, the last two of which evict;
the index and the sequence both hold the keys `e`, `d`, `a`. -/
theorem index_sequence_consistency_witness :
    (0 : Int) < 3 ∧
    (NewLRUCache 3 testOptions).bind (fun l0 =>
      (run l0 (testCalls ++ [Op.set "d" (Value.of 5), Op.set "e" (Value.of 6)])).map
        (fun r => (GoMap.keys r.2.1.keyMap, orderKeys r.2.1)))
      = some (["e", "d", "a"], ["e", "d", "a"]) ∧
    ∃ (l0 : LRUCache Int) (rs : List (Ret Int)) (l : LRUCache Int) (ev : List (Event Int)),
      NewLRUCache 3 testOptions = some l0 ∧
      run l0 (testCalls ++ [Op.set "d" (Value.of 5), Op.set "e" (Value.of 6)])
        = some (rs, l, ev) ∧
      (∀ key, key ∈ GoMap.keys l.keyMap ↔ key ∈ orderKeys l) ∧
      (∀ key, (∃ e, GoMap.get l.keyMap key = some e) ↔
        ∃ item ∈ entries l, item.key = key) :=
  ⟨by decide, by decide,
    index_sequence_consistency 3 testOptions (by decide)
      (testCalls ++ [Op.set "d" (Value.of 5), Op.set "e" (Value.of 6)])⟩

/-! ## Construction, the defensive eviction, distinct keys -/

namespace LRUCache

theorem orderKeys_nodup (l : LRUCache α) (hinv : Inv l) : (orderKeys l).Nodup := by
  unfold orderKeys
  rw [entries_eq_map l hinv, List.map_map]
  apply List.Nodup.map_on _ hinv.order_nodup
  intro x hx y hy hxy
  rcases hinv.deref x hx with ⟨ix, hix, hmx⟩
  rcases hinv.deref y hy with ⟨iy, hiy, hmy⟩
  simp only [Function.comp, hix, hiy, Option.getD_some] at hxy
  rw [hxy] at hmx
  have h1 := GoMap.get_eq_some_of_mem _ _ _ hinv.keys_nodup hmx
  have h2 := GoMap.get_eq_some_of_mem _ _ _ hinv.keys_nodup hmy
  rw [h1] at h2
  exact Option.some.inj h2

/-- On a key the map does not hold, `Set` goes on from the store `pushed`: it
compares the length with the capacity there, and calls `removeLastElement` on
that store only. -/
theorem Set_miss_eq (l : LRUCache α) (key : String) (value : Value α)
    (h : GoMap.get l.keyMap key = none) :
    Set l key value =
      match (if (GoList.Len (pushed l key value).order : Int) > (pushed l key value).maxEntries
        then removeLastElement (pushed l key value)
        else some (pushed l key value, [])) with
      | none => none
      | some (l3, ev) =>
        if l3.options.logs then
          match printList l3 with
          | none => none
          | some out =>
            some (true, l3, ev ++ Event.log ("Elem " ++ key ++ " added to the front") :: out)
        else some (true, l3, ev) := by
  unfold Set
  rw [h]
  rfl

end LRUCache

/-- C11 (invalid construction): for every integer capacity `c` and all options,
`NewLRUCache(c, opts)` returns nil (no store) if and only if `c <= 0`: it
returns nil for zero and every negative capacity, and for no other. -/
theorem invalid_construction (c : Int) (opts : Options) :
    (NewLRUCache c opts : Option (LRUCache α)) = none ↔ c ≤ 0 := by
  by_cases hc : c ≤ 0
  · simp [NewLRUCache, hc]
  · simp [NewLRUCache, hc]

/-- Witness of C11: capacities 0 and -5 give nil, capacity 1 gives a store. -/
theorem invalid_construction_witness :
    (NewLRUCache 0 testOptions : Option (LRUCache Int)) = none ∧
    (NewLRUCache (-5) callbackOptions : Option (LRUCache Int)) = none ∧
    (NewLRUCache 1 testOptions : Option (LRUCache Int)) ≠ none :=
  ⟨(invalid_construction 0 testOptions).2 (by decide),
    (invalid_construction (-5) callbackOptions).2 (by decide),
    fun h => absurd ((invalid_construction 1 testOptions).1 h) (by decide)⟩

/-- C12 (valid construction): for every capacity `c > 0` and all options,
`NewLRUCache(c, opts)` returns a store with capacity `c` and the given options
whose ordered sequence and index are empty (zero resident entries), and on which
`Get(key)` returns nil, the absent result, for every key. -/
theorem valid_construction (c : Int) (opts : Options) (hc : 0 < c) :
    ∃ l : LRUCache α, NewLRUCache c opts = some l ∧
      l.maxEntries = c ∧ l.options = opts ∧ l.order = [] ∧ l.keyMap = [] ∧
      entries l = [] ∧ GoList.Len l.order = 0 ∧ GoMap.len l.keyMap = 0 ∧
      ∀ key, Get l key = some (Value.nil, l, []) :=
  ⟨_, NewLRUCache_eq c opts hc, rfl, rfl, rfl, rfl, rfl, rfl, rfl,
    fun key => Get_miss _ key rfl⟩

/-- Witness of C12: capacity 3 with the options of `TestGet`; `Get("missing")` on
the new store returns nil. -/
theorem valid_construction_witness :
    (0 : Int) < 3 ∧
    (NewLRUCache 3 testOptions).bind (fun l0 => (Get l0 "missing").map (fun r => r.1))
      = some (Value.nil : Value Int) ∧
    ∃ l : LRUCache Int, NewLRUCache 3 testOptions = some l ∧
      l.maxEntries = 3 ∧ l.options = testOptions ∧ l.order = [] ∧ l.keyMap = [] ∧
      entries l = [] ∧ GoList.Len l.order = 0 ∧ GoMap.len l.keyMap = 0 ∧
      ∀ key, Get l key = some (Value.nil, l, []) :=
  ⟨by decide, by decide, valid_construction 3 testOptions (by decide)⟩

/-- C17 (defensive eviction): on every store `l` whose ordered sequence is empty,
`Back()` is nil and `removeLastElement`, which is `removeElement` on nil, returns
without failing, leaves the store (sequence, index, capacity, elements) as it is
and causes no event, so the callback is not called.  This case is unreachable
from `Set`: for every store `s` and every key the map does not hold, the only
store on which `Set` calls `removeLastElement` is `pushed s key value`, whose
sequence starts with the new element, so that `Back()` is not nil there, and the
call is made only when the length there exceeds the capacity, which is at least
1 on every reachable store. -/
theorem defensive_eviction (l : LRUCache α) (h : l.order = []) (s : LRUCache α)
    (key : String) (value : Value α) :
    (GoList.Back l.order = none ∧ removeElement l none = some (l, []) ∧
      removeLastElement l = some (l, []) ∧
      evictCalls ([] : List (Event α)) = []) ∧
    ((pushed s key value).order ≠ [] ∧ GoList.Back (pushed s key value).order ≠ none ∧
      1 ≤ GoList.Len (pushed s key value).order ∧
      (GoMap.get s.keyMap key = none →
        Set s key value =
          match (if (GoList.Len (pushed s key value).order : Int)
              > (pushed s key value).maxEntries
            then removeLastElement (pushed s key value)
            else some (pushed s key value, [])) with
          | none => none
          | some (l3, ev) =>
            if l3.options.logs then
              match printList l3 with
              | none => none
              | some out =>
                some (true, l3,
                  ev ++ Event.log ("Elem " ++ key ++ " added to the front") :: out)
            else some (true, l3, ev)) ∧
      (Reachable s → 1 ≤ s.maxEntries ∧
        ((GoList.Len (pushed s key value).order : Int) > (pushed s key value).maxEntries →
          2 ≤ GoList.Len (pushed s key value).order))) := by
  refine ⟨⟨?_, rfl, ?_, rfl⟩, ?_, ?_, ?_, Set_miss_eq s key value, ?_⟩
  · simp [GoList.Back, h]
  · simp [removeLastElement, GoList.Back, h, removeElement]
  · simp [pushed, GoList.PushFront]
  · cases hs : s.order with
    | nil => simp [pushed, GoList.PushFront, GoList.Back, hs]
    | cons x xs =>
      simp [pushed, GoList.PushFront, GoList.Back, hs, List.getLast?_cons_cons,
        List.getLast?_eq_getLast]
  · simp [pushed, GoList.PushFront, GoList.Len]
  · intro hr
    have hcap := hr.inv.cap_pos
    refine ⟨by omega, ?_⟩
    intro h2
    have h3 : (pushed s key value).maxEntries = s.maxEntries := rfl
    rw [h3] at h2
    omega

/-- Witness of C17: the new store of capacity 3 with a callback, whose sequence
is empty, and `Set(d,48)` on the full store of `TestEvictCallback`. -/
theorem defensive_eviction_witness :
    removeLastElement
      ({ maxEntries := 3, keyMap := [], order := [], options := callbackOptions, heap := [] } :
        LRUCache Int)
      = some ({ maxEntries := 3, keyMap := [], order := [], options := callbackOptions,
                heap := [] }, []) ∧
    GoList.Back (pushed storeCBA "d" (Value.of 48)).order = some 0 ∧
    (pushed storeCBA "d" (Value.of 48)).order = [3, 2, 1, 0] ∧
    ((GoList.Back ([] : List Nat) = none ∧
      removeElement
        ({ maxEntries := 3, keyMap := [], order := [], options := callbackOptions,
           heap := [] } : LRUCache Int) none
        = some ({ maxEntries := 3, keyMap := [], order := [], options := callbackOptions,
                  heap := [] }, []) ∧
      removeLastElement
        ({ maxEntries := 3, keyMap := [], order := [], options := callbackOptions,
           heap := [] } : LRUCache Int)
        = some ({ maxEntries := 3, keyMap := [], order := [], options := callbackOptions,
                  heap := [] }, []) ∧
      evictCalls ([] : List (Event Int)) = []) ∧
    ((pushed storeCBA "d" (Value.of 48)).order ≠ [] ∧
      GoList.Back (pushed storeCBA "d" (Value.of 48)).order ≠ none ∧
      1 ≤ GoList.Len (pushed storeCBA "d" (Value.of 48)).order ∧
      (GoMap.get storeCBA.keyMap "d" = none →
        Set storeCBA "d" (Value.of 48) =
          match (if (GoList.Len (pushed storeCBA "d" (Value.of 48)).order : Int)
              > (pushed storeCBA "d" (Value.of 48)).maxEntries
            then removeLastElement (pushed storeCBA "d" (Value.of 48))
            else some (pushed storeCBA "d" (Value.of 48), [])) with
          | none => none
          | some (l3, ev) =>
            if l3.options.logs then
              match printList l3 with
              | none => none
              | some out =>
                some (true, l3,
                  ev ++ Event.log ("Elem " ++ "d" ++ " added to the front") :: out)
            else some (true, l3, ev)) ∧
      (Reachable storeCBA → 1 ≤ storeCBA.maxEntries ∧
        ((GoList.Len (pushed storeCBA "d" (Value.of 48)).order : Int)
            > (pushed storeCBA "d" (Value.of 48)).maxEntries →
          2 ≤ GoList.Len (pushed storeCBA "d" (Value.of 48)).order)))) :=
  ⟨by decide, by decide, by decide,
    defensive_eviction
      ({ maxEntries := 3, keyMap := [], order := [], options := callbackOptions, heap := [] } :
        LRUCache Int) rfl storeCBA "d" (Value.of 48)⟩

/-- C19 (unique keys and faithful index): for every capacity `c > 0`, all options
and every sequence of `Set` and `Get` calls on the store returned by
`NewLRUCache(c, opts)`, the calls return and in the store they leave the keys of
the entries of the ordered sequence are pairwise distinct, no element is linked
twice, the index has distinct keys and as many bindings as the sequence has
elements, and for every key of the index the element the index records is an
element of the sequence and holds the entry with that key. -/
theorem unique_keys_faithful_index (c : Int) (opts : Options) (hc : 0 < c)
    (ops : List (Op α)) :
    ∃ (l0 : LRUCache α) (rs : List (Ret α)) (l : LRUCache α) (ev : List (Event α)),
      NewLRUCache c opts = some l0 ∧ run l0 ops = some (rs, l, ev) ∧
      (orderKeys l).Nodup ∧ l.order.Nodup ∧ (GoMap.keys l.keyMap).Nodup ∧
      GoMap.len l.keyMap = GoList.Len l.order ∧
      (∀ key e, GoMap.get l.keyMap key = some e →
        e ∈ l.order ∧ ∃ item, l.heap[e]? = some item ∧ item.key = key ∧ item ∈ entries l) := by
  have hinv0 : Inv (_ : LRUCache α) := Inv_new c opts hc
  rcases run_spec _ hinv0 ops with ⟨rs, l, ev, hr, hinv, _, _⟩
  refine ⟨_, rs, l, ev, NewLRUCache_eq c opts hc, hr, orderKeys_nodup l hinv,
    hinv.order_nodup, hinv.keys_nodup, map_len_eq l hinv, ?_⟩
  intro key e hget
  rcases hinv.get_some key e hget with ⟨ho, item, hitem, hkey⟩
  exact ⟨ho, item, hitem, hkey, (mem_entries_iff l hinv item).2 ⟨e, hkey ▸ hget, hitem⟩⟩

/-- Witness of C19: the calls of `TestSetOutRange`, with an update and two
evictions; the index binds `e`, `d`, `a` to the elements 4, 3, 0 of the
sequence `[4, 3, 0]`. -/
theorem unique_keys_faithful_index_witness :
    (0 : Int) < 3 ∧
    (NewLRUCache 3 testOptions : Option (LRUCache Int)).bind (fun l0 =>
      (run l0 (testCalls ++ [Op.set "d" (Value.of 5), Op.set "e" (Value.of 6)])).map
        (fun r => (r.2.1.keyMap, r.2.1.order, entries r.2.1)))
      = some ([("e", 4), ("d", 3), ("a", 0)], [4, 3, 0],
          [{ key := "e", value := Value.of 6 }, { key := "d", value := Value.of 5 },
            { key := "a", value := Value.of 4 }]) ∧
    ∃ (l0 : LRUCache Int) (rs : List (Ret Int)) (l : LRUCache Int) (ev : List (Event Int)),
      NewLRUCache 3 testOptions = some l0 ∧
      run l0 (testCalls ++ [Op.set "d" (Value.of 5), Op.set "e" (Value.of 6)])
        = some (rs, l, ev) ∧
      (orderKeys l).Nodup ∧ l.order.Nodup ∧ (GoMap.keys l.keyMap).Nodup ∧
      GoMap.len l.keyMap = GoList.Len l.order ∧
      (∀ key e, GoMap.get l.keyMap key = some e →
        e ∈ l.order ∧ ∃ item, l.heap[e]? = some item ∧ item.key = key ∧ item ∈ entries l) :=
  ⟨by decide, by decide,
    unique_keys_faithful_index 3 testOptions (by decide)
      (testCalls ++ [Op.set "d" (Value.of 5), Op.set "e" (Value.of 6)])⟩

/-! ## Lookup in the list of entries -/

theorem modelGet_cons_ne (L : List (CacheItem α)) (item : CacheItem α) (key : String)
    (h : item.key ≠ key) : modelGet (item :: L) key = modelGet L key := by
  simp [modelGet, List.find?_cons, h]

theorem modelGet_cons_eq (L : List (CacheItem α)) (item : CacheItem α) (key : String)
    (h : item.key = key) : modelGet (item :: L) key = item.value := by
  simp [modelGet, List.find?_cons, h]

theorem modelGet_of_not_mem (L : List (CacheItem α)) (key : String)
    (h : key ∉ L.map CacheItem.key) : modelGet L key = Value.nil := by
  induction L with
  | nil => rfl
  | cons x xs ih =>
    simp only [List.map_cons, List.mem_cons, not_or] at h
    rw [modelGet_cons_ne xs x key (fun h2 => h.1 h2.symm)]
    exact ih h.2

theorem modelGet_of_mem (L : List (CacheItem α)) (item : CacheItem α)
    (hnd : (L.map CacheItem.key).Nodup) (h : item ∈ L) :
    modelGet L item.key = item.value := by
  induction L with
  | nil => simp at h
  | cons x xs ih =>
    simp only [List.map_cons, List.nodup_cons] at hnd
    rcases List.mem_cons.1 h with h1 | h1
    · rw [h1]; exact modelGet_cons_eq xs x x.key rfl
    · have hne : x.key ≠ item.key := by
        intro h2
        apply hnd.1
        rw [h2]
        exact List.mem_map_of_mem CacheItem.key h1
      rw [modelGet_cons_ne xs x item.key hne]
      exact ih hnd.2 h1

theorem modelGet_filter_ne (L : List (CacheItem α)) (key key2 : String) (h : key ≠ key2) :
    modelGet (L.filter (fun item => decide (item.key ≠ key))) key2 = modelGet L key2 := by
  induction L with
  | nil => rfl
  | cons x xs ih =>
    by_cases hx : x.key = key
    · have h1 : (x :: xs).filter (fun item => decide (item.key ≠ key))
          = xs.filter (fun item => decide (item.key ≠ key)) := by
        simp [List.filter_cons, hx]
      rw [h1, ih, modelGet_cons_ne xs x key2 (by rw [hx]; exact h)]
    · have h1 : (x :: xs).filter (fun item => decide (item.key ≠ key))
          = x :: xs.filter (fun item => decide (item.key ≠ key)) := by
        simp [List.filter_cons, hx]
      rw [h1]
      by_cases hx2 : x.key = key2
      · rw [modelGet_cons_eq _ x key2 hx2, modelGet_cons_eq _ x key2 hx2]
      · rw [modelGet_cons_ne _ x key2 hx2, modelGet_cons_ne _ x key2 hx2, ih]

theorem modelGet_append_singleton (L : List (CacheItem α)) (t : CacheItem α) (key : String) :
    modelGet (L ++ [t]) key =
      if key ∈ L.map CacheItem.key then modelGet L key
      else if t.key = key then t.value else Value.nil := by
  induction L with
  | nil =>
    by_cases ht : t.key = key
    · simp [modelGet, List.find?_cons, ht]
    · simp [modelGet, List.find?_cons, ht]
  | cons x xs ih =>
    rw [List.cons_append]
    by_cases hx : x.key = key
    · rw [modelGet_cons_eq _ x key hx, modelGet_cons_eq _ x key hx]
      simp [hx]
    · rw [modelGet_cons_ne _ x key hx, modelGet_cons_ne _ x key hx, ih]
      have hx2 : ¬ key = x.key := fun h => hx h.symm
      simp [hx2]

namespace LRUCache

/-- Method `Get` returns what the lookup in the list of entries gives. -/
theorem Get_eq_modelGet (l : LRUCache α) (hinv : Inv l) (key : String) :
    Get l key = some (modelGet (entries l) key, l, []) := by
  cases hget : GoMap.get l.keyMap key with
  | none =>
    rw [Get_miss l key hget, modelGet_of_not_mem _ key ((get_none_iff l hinv key).1 hget)]
  | some e =>
    rcases Get_hit l hinv key e hget with ⟨item, _, hkey, hmem, hg⟩
    rw [hg, ← hkey, modelGet_of_mem _ item (orderKeys_nodup l hinv) hmem]

end LRUCache

/-- C16 (notifier runs after removal): for every reachable store with an eviction
callback `cb` and every evicting call `Set(key, value)` (the key is not resident
and the store is full), the call returns `true` and its first and only callback
event is the call of `cb` with the key and value of the old tail entry `t`.  The
store at the moment of that call is the store `l1` the `Set` returns with; in it
the evicted key is in neither the ordered sequence nor the index, the new key is
in the index, bound to the element at the head of the sequence, which holds
`(key, value)`, the resident count equals the capacity, and the representation
invariant holds. -/
theorem notifier_after_removal (l : LRUCache α) (h : Reachable l) (cb : EvictCallback)
    (hcb : l.options.evictCallback = some cb) (key : String) (value : Value α)
    (hk : key ∉ orderKeys l) (hfull : (GoList.Len l.order : Int) = l.maxEntries) :
    ∃ (l1 : LRUCache α) (out : List (Event α)) (front : List (CacheItem α))
        (t : CacheItem α) (e : Nat) (rest : List Nat),
      entries l = front ++ [t] ∧
      Set l key value = some (true, l1, Event.evict cb t.key t.value l1 :: out) ∧
      evictCalls out = [] ∧
      t.key ∉ orderKeys l1 ∧ GoMap.get l1.keyMap t.key = none ∧
      entries l1 = { key := key, value := value } :: front ∧
      l1.order = e :: rest ∧ GoMap.get l1.keyMap key = some e ∧
      l1.heap[e]? = some { key := key, value := value } ∧
      (GoList.Len l1.order : Int) = l1.maxEntries ∧
      (GoMap.len l1.keyMap : Int) = l1.maxEntries ∧
      Inv l1 := by
  have hinv := h.inv
  have hget : GoMap.get l.keyMap key = none := (get_none_iff l hinv key).2 hk
  rcases Set_evict l hinv key value hget hfull with ⟨fr, t, item, out, hs, hi, hne, hset, hout⟩
  rcases entries_evict l hinv key value fr t item hs hi with ⟨h1, h2⟩
  have hinv1 := Inv_evict l hinv key value fr t item hget hs hi
  rw [hcb] at hset
  have hnotin : item.key ∉ orderKeys
      ({ maxEntries := l.maxEntries,
         keyMap := (key, l.heap.length) :: GoMap.delete l.keyMap item.key,
         order := l.heap.length :: fr, options := l.options,
         heap := l.heap ++ [{ key := key, value := value }] } : LRUCache α) := by
    rw [mem_orderKeys_iff _ hinv1]
    simp only [GoMap.keys, List.map_cons, List.mem_cons, not_or]
    exact ⟨hne, GoMap.not_mem_keys_delete _ _⟩
  have hlen : ((GoList.Len (l.heap.length :: fr) : Nat) : Int) = l.maxEntries := by
    rw [← hfull, hs]
    simp [GoList.Len]
  refine ⟨_, out, _, item, l.heap.length, fr, h1, hset, hout, hnotin,
    (get_none_iff _ hinv1 _).2 hnotin, h2, rfl, ?_, ?_, hlen, ?_, hinv1⟩
  · simp [GoMap.get]
  · show (l.heap ++ [({ key := key, value := value } : CacheItem α)])[l.heap.length]? = _
    rw [List.getElem?_append_right (le_refl _)]
    simp
  · rw [map_len_eq _ hinv1]
    exact hlen

/-- Witness of C16, the `Set(d,48)` of `TestEvictCallback`: the callback is called
with `a` and 8 on the store in which `a` is gone and `d` is at the head. -/
theorem notifier_after_removal_witness :
    Set storeCBA "d" (Value.of 48) = some (true,
      ({ maxEntries := 3, keyMap := [("d", 3), ("c", 2), ("b", 1)], order := [3, 2, 1],
         options := callbackOptions,
         heap := [{ key := "a", value := Value.of 8 }, { key := "b", value := Value.of 16 },
           { key := "c", value := Value.of 32 }, { key := "d", value := Value.of 48 }] } :
        LRUCache Int),
      [Event.evict { fn := 0 } "a" (Value.of 8)
        ({ maxEntries := 3, keyMap := [("d", 3), ("c", 2), ("b", 1)], order := [3, 2, 1],
           options := callbackOptions,
           heap := [{ key := "a", value := Value.of 8 }, { key := "b", value := Value.of 16 },
             { key := "c", value := Value.of 32 }, { key := "d", value := Value.of 48 }] } :
          LRUCache Int)]) ∧
    ∃ (l1 : LRUCache Int) (out : List (Event Int)) (front : List (CacheItem Int))
        (t : CacheItem Int) (e : Nat) (rest : List Nat),
      entries storeCBA = front ++ [t] ∧
      Set storeCBA "d" (Value.of 48)
        = some (true, l1, Event.evict { fn := 0 } t.key t.value l1 :: out) ∧
      evictCalls out = [] ∧
      t.key ∉ orderKeys l1 ∧ GoMap.get l1.keyMap t.key = none ∧
      entries l1 = { key := "d", value := Value.of 48 } :: front ∧
      l1.order = e :: rest ∧ GoMap.get l1.keyMap "d" = some e ∧
      l1.heap[e]? = some { key := "d", value := Value.of 48 } ∧
      (GoList.Len l1.order : Int) = l1.maxEntries ∧
      (GoMap.len l1.keyMap : Int) = l1.maxEntries ∧
      Inv l1 :=
  ⟨by decide,
    notifier_after_removal storeCBA
      ((reachable_iff_run storeCBA).2 ⟨3, callbackOptions, _, callbackCalls, _, _, rfl, rfl⟩)
      { fn := 0 } rfl "d" (Value.of 48) (by decide) (by decide)⟩

namespace LRUCache

/-- The three cases of `Set` on the list of entries: update of a resident key,
insert below the capacity, insert into a full store with eviction of the tail. -/
theorem Set_cases (l : LRUCache α) (hinv : Inv l) (key : String) (value : Value α) :
    ∃ (b : Bool) (l1 : LRUCache α) (ev : List (Event α)),
      Set l key value = some (b, l1, ev) ∧ Inv l1 ∧
      l1.maxEntries = l.maxEntries ∧ l1.options = l.options ∧
      ((key ∈ orderKeys l ∧ b = false ∧
          entries l1 = { key := key, value := value } ::
            (entries l).filter (fun item => decide (item.key ≠ key)) ∧
          evictCalls ev = []) ∨
       (key ∉ orderKeys l ∧ (GoList.Len l.order : Int) < l.maxEntries ∧ b = true ∧
          entries l1 = { key := key, value := value } :: entries l ∧
          evictCalls ev = []) ∨
       (key ∉ orderKeys l ∧ (GoList.Len l.order : Int) = l.maxEntries ∧ b = true ∧
          ∃ (front : List (CacheItem α)) (t : CacheItem α),
            entries l = front ++ [t] ∧
            entries l1 = { key := key, value := value } :: front ∧
            evictCalls ev =
              (match l.options.evictCallback with
                | some cb => [(cb, t.key, t.value)]
                | none => []))) := by
  cases hget : GoMap.get l.keyMap key with
  | some e =>
    have hres : key ∈ orderKeys l := by
      by_contra hc
      rw [(get_none_iff l hinv key).2 hc] at hget
      cases hget
    rcases Set_hit l hinv key value e hget with ⟨ev, hset, hcalls⟩
    exact ⟨false, _, ev, hset, Inv_hit l hinv key value e hget, rfl, rfl,
      Or.inl ⟨hres, rfl, entries_hit l hinv key value e hget, hcalls⟩⟩
  | none =>
    have hk : key ∉ orderKeys l := (get_none_iff l hinv key).1 hget
    rcases len_cases hinv with hlt | hfull
    · rcases Set_insert l hinv key value hget hlt with ⟨ev, hset, hcalls⟩
      exact ⟨true, _, ev, hset, Inv_insert l hinv key value hget hlt, rfl, rfl,
        Or.inr (Or.inl ⟨hk, hlt, rfl, entries_insert l hinv key value, hcalls⟩)⟩
    · rcases Set_evict l hinv key value hget hfull with
        ⟨fr, t, item, out, hs, hi, _, hset, hout⟩
      rcases entries_evict l hinv key value fr t item hs hi with ⟨h1, h2⟩
      refine ⟨true, _, _, hset, Inv_evict l hinv key value fr t item hget hs hi, rfl, rfl,
        Or.inr (Or.inr ⟨hk, hfull, rfl, _, item, h1, h2, ?_⟩)⟩
      rw [evictCalls_append, hout, List.append_nil]
      cases l.options.evictCallback <;> rfl

end LRUCache

/-- C18 (frame of `Set` on other keys): for every reachable store and all keys
`key ≠ key2`, `Set(key, value)` returns, and `Get(key2)` returns before and after
it; the result after is the result before or nil, and it differs from the result
before only when `key` was not resident, the store was full and `key2` was the
key at the tail of the sequence.  The same holds for residency: `key2` stops
being resident only in that case, and does not become resident by the call.
Every entry of another key that remains resident is still in the sequence with
its value, and the capacity is unchanged. -/
theorem set_frame (l : LRUCache α) (h : Reachable l) (key key2 : String) (hne : key ≠ key2)
    (value : Value α) :
    ∃ (b : Bool) (l1 : LRUCache α) (ev : List (Event α)) (v0 v1 : Value α),
      Set l key value = some (b, l1, ev) ∧
      Get l key2 = some (v0, l, []) ∧ Get l1 key2 = some (v1, l1, []) ∧
      (v1 = v0 ∨ v1 = Value.nil) ∧
      (v1 ≠ v0 → key ∉ orderKeys l ∧ (GoList.Len l.order : Int) = l.maxEntries ∧
        (orderKeys l).getLast? = some key2) ∧
      (key2 ∈ orderKeys l → key2 ∉ orderKeys l1 →
        key ∉ orderKeys l ∧ (GoList.Len l.order : Int) = l.maxEntries ∧
        (orderKeys l).getLast? = some key2) ∧
      (key2 ∈ orderKeys l1 → key2 ∈ orderKeys l) ∧
      (∀ item ∈ entries l, item.key ≠ key → item.key ∈ orderKeys l1 → item ∈ entries l1) ∧
      l1.maxEntries = l.maxEntries := by
  have hinv := h.inv
  rcases Set_cases l hinv key value with ⟨b, l1, ev, hset, hinv1, hmax, _, hcase⟩
  refine ⟨b, l1, ev, modelGet (entries l) key2, modelGet (entries l1) key2, hset,
    Get_eq_modelGet l hinv key2, Get_eq_modelGet l1 hinv1 key2, ?_⟩
  have hnew : ({ key := key, value := value } : CacheItem α).key ≠ key2 := hne
  rcases hcase with ⟨hres, _, hent, _⟩ | ⟨hk, hlt, _, hent, _⟩ | ⟨hk, hfull, _, fr, t, h1, hent, _⟩
  · -- update of a resident key
    have hsame : modelGet (entries l1) key2 = modelGet (entries l) key2 := by
      rw [hent, modelGet_cons_ne _ _ key2 hnew, modelGet_filter_ne _ key key2 hne]
    have hkeys : ∀ k, k ≠ key → (k ∈ orderKeys l1 ↔ k ∈ orderKeys l) := by
      intro k hkne
      simp only [orderKeys, hent, List.map_cons, List.mem_cons, List.mem_map, List.mem_filter]
      constructor
      · rintro (h1 | ⟨item, ⟨h2, _⟩, h3⟩)
        · exact absurd h1 hkne
        · exact ⟨item, h2, h3⟩
      · rintro ⟨item, h2, h3⟩
        exact Or.inr ⟨item, ⟨h2, by simpa [h3] using hkne⟩, h3⟩
    refine ⟨Or.inl hsame, fun h2 => absurd hsame h2, ?_, ?_, ?_, hmax⟩
    · intro h2 h3
      exact absurd ((hkeys key2 (fun h4 => hne h4.symm)).2 h2) h3
    · intro h2
      exact (hkeys key2 (fun h4 => hne h4.symm)).1 h2
    · intro item hitem hik _
      rw [hent]
      exact List.mem_cons_of_mem _ (List.mem_filter.2 ⟨hitem, by simpa using hik⟩)
  · -- insert below the capacity
    have hsame : modelGet (entries l1) key2 = modelGet (entries l) key2 := by
      rw [hent, modelGet_cons_ne _ _ key2 hnew]
    refine ⟨Or.inl hsame, fun h2 => absurd hsame h2, ?_, ?_, ?_, hmax⟩
    · intro h2 h3
      exfalso
      apply h3
      simp only [orderKeys, hent, List.map_cons, List.mem_cons]
      exact Or.inr h2
    · intro h2
      simp only [orderKeys, hent, List.map_cons, List.mem_cons] at h2
      rcases h2 with h2 | h2
      · exact absurd h2.symm hne
      · exact h2
    · intro item hitem _ _
      rw [hent]
      exact List.mem_cons_of_mem _ hitem
  · -- insert into a full store: the tail entry is evicted
    have hnd := orderKeys_nodup l hinv
    have hkeys : orderKeys l = fr.map CacheItem.key ++ [t.key] := by
      simp [orderKeys, h1]
    have hlast : (orderKeys l).getLast? = some t.key := by
      rw [hkeys]; simp
    have hafter : modelGet (entries l1) key2 = modelGet fr key2 := by
      rw [hent, modelGet_cons_ne _ _ key2 hnew]
    have hbefore := modelGet_append_singleton fr t key2
    rw [← h1] at hbefore
    have htail : key2 ∉ fr.map CacheItem.key → key2 ∈ orderKeys l → t.key = key2 := by
      intro h2 h3
      rw [hkeys] at h3
      rcases List.mem_append.1 h3 with h4 | h4
      · exact absurd h4 h2
      · exact (List.mem_singleton.1 h4).symm
    refine ⟨?_, ?_, ?_, ?_, ?_, hmax⟩
    · by_cases hin : key2 ∈ fr.map CacheItem.key
      · left; rw [hafter, hbefore, if_pos hin]
      · right; rw [hafter]; exact modelGet_of_not_mem fr key2 hin
    · intro hdiff
      by_cases hin : key2 ∈ fr.map CacheItem.key
      · exfalso; apply hdiff; rw [hafter, hbefore, if_pos hin]
      · rw [hafter, hbefore, if_neg hin] at hdiff
        by_cases ht : t.key = key2
        · exact ⟨hk, hfull, by rw [hlast, ht]⟩
        · exfalso; apply hdiff
          rw [if_neg ht]
          exact modelGet_of_not_mem fr key2 hin
    · intro h2 h3
      have hin : key2 ∉ fr.map CacheItem.key := by
        intro h4
        apply h3
        simp only [orderKeys, hent, List.map_cons, List.mem_cons]
        exact Or.inr h4
      exact ⟨hk, hfull, by rw [hlast, htail hin h2]⟩
    · intro h2
      simp only [orderKeys, hent, List.map_cons, List.mem_cons] at h2
      rcases h2 with h2 | h2
      · exact absurd h2.symm hne
      · rw [hkeys]; exact List.mem_append_left _ h2
    · intro item hitem hik hres
      rw [hent]
      refine List.mem_cons_of_mem _ ?_
      rw [h1] at hitem
      rcases List.mem_append.1 hitem with h4 | h4
      · exact h4
      · exfalso
        have hit : item = t := List.mem_singleton.1 h4
        simp only [orderKeys, hent, List.map_cons, List.mem_cons] at hres
        rcases hres with h5 | h5
        · exact hik h5
        · rw [hkeys] at hnd
          rw [hit] at h5
          exact (List.nodup_append.1 hnd).2.2 h5 (List.mem_singleton_self _)

/-- Witness of C18 on the full store of `TestSetOutRange` with order `[a,c,b]`:
`Set(d,5)` evicts the tail `b`, so `Get(b)` turns from 2 to nil while `Get(c)`
stays 3. -/
theorem set_frame_witness :
    (run storeACB [Op.get "b", Op.get "c", Op.set "d" (Value.of 5), Op.get "b",
      Op.get "c"]).map (fun r => r.1)
      = some [Ret.get (Value.of 2), Ret.get (Value.of 3), Ret.set true, Ret.get Value.nil,
          Ret.get (Value.of 3)] ∧
    ∃ (b : Bool) (l1 : LRUCache Int) (ev : List (Event Int)) (v0 v1 : Value Int),
      Set storeACB "d" (Value.of 5) = some (b, l1, ev) ∧
      Get storeACB "b" = some (v0, storeACB, []) ∧ Get l1 "b" = some (v1, l1, []) ∧
      (v1 = v0 ∨ v1 = Value.nil) ∧
      (v1 ≠ v0 → "d" ∉ orderKeys storeACB ∧
        (GoList.Len storeACB.order : Int) = storeACB.maxEntries ∧
        (orderKeys storeACB).getLast? = some "b") ∧
      ("b" ∈ orderKeys storeACB → "b" ∉ orderKeys l1 →
        "d" ∉ orderKeys storeACB ∧
        (GoList.Len storeACB.order : Int) = storeACB.maxEntries ∧
        (orderKeys storeACB).getLast? = some "b") ∧
      ("b" ∈ orderKeys l1 → "b" ∈ orderKeys storeACB) ∧
      (∀ item ∈ entries storeACB, item.key ≠ "d" → item.key ∈ orderKeys l1 →
        item ∈ entries l1) ∧
      l1.maxEntries = storeACB.maxEntries :=
  ⟨by decide,
    set_frame storeACB
      ((reachable_iff_run storeACB).2 ⟨3, testOptions, _, testCalls, _, _, rfl, rfl⟩)
      "d" "b" (by decide) (Value.of 5)⟩

/-! ## The option `logs` -/

theorem Inv_withLogs (b : Bool) (l : LRUCache α) (hinv : Inv l) : Inv (withLogs b l) where
  cap_pos := hinv.cap_pos
  len_le := hinv.len_le
  order_nodup := hinv.order_nodup
  keys_nodup := hinv.keys_nodup
  map_sound := hinv.map_sound
  map_complete := hinv.map_complete

namespace LRUCache

theorem printFrom_eq (heap : List (CacheItem α)) (order : List Nat)
    (h : ∀ e ∈ order, e < heap.length) :
    printFrom heap order = some ((order.filterMap (fun e => heap[e]?)).map
      (fun item => Event.print item.key item.value)) := by
  induction order with
  | nil => rfl
  | cons e rest ih =>
    have he : e < heap.length := h e (List.mem_cons_self _ _)
    have hget : heap[e]? = some heap[e] := List.getElem?_eq_getElem he
    rw [List.filterMap_cons_some hget]
    simp only [printFrom, hget, ih (fun x hx => h x (List.mem_cons_of_mem _ hx)),
      List.map_cons]

theorem printList_eq (l : LRUCache α) (hinv : Inv l) :
    printList l = some ((entries l).map (fun item => Event.print item.key item.value)) :=
  printFrom_eq l.heap l.order (fun e he => hinv.lt_heap e he)

theorem evictCalls_map_print (L : List (CacheItem α)) :
    evictCalls (L.map (fun item => (Event.print item.key item.value : Event α))) = [] := by
  induction L with
  | nil => rfl
  | cons x xs ih => simp [evictCalls, ih]

/-- Method `Set` on the store with another value of `logs`: the same return
value, the same store up to `logs`, the same calls of the callback. -/
theorem Set_withLogs (b : Bool) (l : LRUCache α) (hinv : Inv l) (key : String)
    (value : Value α) (r : Bool) (l1 : LRUCache α) (ev : List (Event α))
    (h : Set l key value = some (r, l1, ev)) :
    ∃ ev2, Set (withLogs b l) key value = some (r, withLogs b l1, ev2) ∧
      evictCalls ev2 = evictCalls ev := by
  have hinvb := Inv_withLogs b l hinv
  cases hget : GoMap.get l.keyMap key with
  | some e =>
    rcases Set_hit l hinv key value e hget with ⟨ev1, hset, hcalls⟩
    rcases Set_hit (withLogs b l) hinvb key value e hget with ⟨ev2, hset2, hcalls2⟩
    rw [h] at hset
    simp only [Option.some.injEq, Prod.mk.injEq] at hset
    rcases hset with ⟨rfl, rfl, rfl⟩
    exact ⟨ev2, hset2, by rw [hcalls, hcalls2]⟩
  | none =>
    rcases len_cases hinv with hlt | hfull
    · rcases Set_insert l hinv key value hget hlt with ⟨ev1, hset, hcalls⟩
      rcases Set_insert (withLogs b l) hinvb key value hget hlt with ⟨ev2, hset2, hcalls2⟩
      rw [h] at hset
      simp only [Option.some.injEq, Prod.mk.injEq] at hset
      rcases hset with ⟨rfl, rfl, rfl⟩
      exact ⟨ev2, hset2, by rw [hcalls, hcalls2]⟩
    · rcases Set_evict l hinv key value hget hfull with
        ⟨fr, t, item, out, hs, hi, _, hset, hout⟩
      rcases Set_evict (withLogs b l) hinvb key value hget hfull with
        ⟨fr2, t2, item2, out2, hs2, hi2, _, hset2, hout2⟩
      have hs3 : fr ++ [t] = fr2 ++ [t2] := by rw [← hs]; exact hs2
      rcases List.append_inj' hs3 rfl with ⟨hfr, ht⟩
      have ht2 : t = t2 := by simpa using ht
      subst hfr
      subst ht2
      have hitem : item = item2 := by
        have : l.heap[t]? = some item2 := hi2
        rw [hi] at this
        exact Option.some.inj this
      subst hitem
      rw [h] at hset
      simp only [Option.some.injEq, Prod.mk.injEq] at hset
      rcases hset with ⟨rfl, rfl, rfl⟩
      refine ⟨_, hset2, ?_⟩
      rw [evictCalls_append, evictCalls_append, hout, hout2]
      show evictCalls (match l.options.evictCallback with
        | some cb => _
        | none => _) ++ [] = _
      cases l.options.evictCallback <;> rfl

theorem run_withLogs (b : Bool) (l : LRUCache α) (hinv : Inv l) (ops : List (Op α)) :
    ∃ (rs : List (Ret α)) (l1 : LRUCache α) (ev ev2 : List (Event α)),
      run l ops = some (rs, l1, ev) ∧
      run (withLogs b l) ops = some (rs, withLogs b l1, ev2) ∧
      evictCalls ev2 = evictCalls ev := by
  induction ops generalizing l with
  | nil => exact ⟨[], l, [], [], rfl, rfl, rfl⟩
  | cons op ops ih =>
    cases op with
    | set key value =>
      rcases Set_spec l hinv key value with ⟨r, l1, ev1, hs, hi, _⟩
      rcases Set_withLogs b l hinv key value r l1 ev1 hs with ⟨ev1b, hsb, hcalls⟩
      rcases ih l1 hi with ⟨rs, l2, ev, ev2, h1, h2, h3⟩
      refine ⟨Ret.set r :: rs, l2, ev1 ++ ev, ev1b ++ ev2, ?_, ?_, ?_⟩
      · simp [run, step, hs, h1]
      · simp [run, step, hsb, h2]
      · rw [evictCalls_append, evictCalls_append, hcalls, h3]
    | get key =>
      have hg := Get_eq_modelGet l hinv key
      have hgb := Get_eq_modelGet (withLogs b l) (Inv_withLogs b l hinv) key
      have hent : entries (withLogs b l) = entries l := rfl
      rw [hent] at hgb
      rcases ih l hinv with ⟨rs, l2, ev, ev2, h1, h2, h3⟩
      refine ⟨Ret.get (modelGet (entries l) key) :: rs, l2, ev, ev2, ?_, ?_, h3⟩
      · simp [run, step, hg, h1]
      · simp [run, step, hgb, h2]

end LRUCache

/-- C20 (diagnostic logging does not affect behaviour): for every capacity
`c > 0`, all options, every value `b` of the option `logs` and every sequence of
`Set` and `Get` calls, the calls on the store made with the options and on the
store made with the same options except `logs = b` both return, with the same
`Set` return values and `Get` results and the same sequence of callback calls,
and leave stores with the same capacity, ordered sequence, index, elements and
callback, which differ in `logs` only.  On every reachable store `printList`
returns one line per entry of the sequence, in order, calls no callback, and
gives back no store: it only reads. -/
theorem logging_does_not_affect_behaviour (c : Int) (opts : Options) (hc : 0 < c) (b : Bool)
    (ops : List (Op α)) (s : LRUCache α) (hs : Reachable s) :
    (∃ (l0 l0b : LRUCache α) (rs : List (Ret α)) (l lb : LRUCache α)
        (ev evb : List (Event α)),
      NewLRUCache c opts = some l0 ∧
      NewLRUCache c { opts with logs := b } = some l0b ∧
      run l0 ops = some (rs, l, ev) ∧ run l0b ops = some (rs, lb, evb) ∧
      evictCalls evb = evictCalls ev ∧
      lb.maxEntries = l.maxEntries ∧ lb.order = l.order ∧ lb.keyMap = l.keyMap ∧
      lb.heap = l.heap ∧ entries lb = entries l ∧
      lb.options.evictCallback = l.options.evictCallback ∧
      lb = withLogs b l) ∧
    (printList s = some ((entries s).map (fun item => Event.print item.key item.value)) ∧
      evictCalls ((entries s).map
        (fun item => (Event.print item.key item.value : Event α))) = []) := by
  refine ⟨?_, printList_eq s hs.inv, evictCalls_map_print _⟩
  have hinv0 : Inv (_ : LRUCache α) := Inv_new c opts hc
  rcases run_withLogs b _ hinv0 ops with ⟨rs, l, ev, evb, h1, h2, h3⟩
  exact ⟨_, _, rs, l, withLogs b l, ev, evb, NewLRUCache_eq c opts hc,
    NewLRUCache_eq c { opts with logs := b } hc, h1, h2, h3, rfl, rfl, rfl, rfl, rfl, rfl, rfl⟩

/-- Witness of C20: the calls of `TestEvictCallback`, with a `Get`, on a store of
capacity 3 with and without logging; the results, the callback call for `a` and
the final sequence and index are the same, and with logging the last `Set`
writes one log line and three lines of `printList`. -/
theorem logging_does_not_affect_behaviour_witness :
    (0 : Int) < 3 ∧
    (NewLRUCache 3 { logs := true, evictCallback := some { fn := 0 } } :
      Option (LRUCache Int)).bind (fun l0 =>
      (run l0 (callbackCalls ++ [Op.get "a", Op.set "d" (Value.of 48)])).map
        (fun r => (r.1, evictCalls r.2.2)))
      = some ([Ret.set true, Ret.set true, Ret.set true, Ret.get (Value.of 8), Ret.set true],
          [({ fn := 0 }, "a", Value.of 8)]) ∧
    (NewLRUCache 3 { logs := true, evictCallback := some { fn := 0 } } :
      Option (LRUCache Int)).bind (fun l0 =>
      (run l0 (callbackCalls ++ [Op.get "a", Op.set "d" (Value.of 48)])).map
        (fun r => (orderKeys r.2.1, r.2.1.keyMap)))
      = some (["d", "c", "b"], [("d", 3), ("c", 2), ("b", 1)]) ∧
    (NewLRUCache 3 { logs := false, evictCallback := some { fn := 0 } } :
      Option (LRUCache Int)).bind (fun l0 =>
      (run l0 (callbackCalls ++ [Op.get "a", Op.set "d" (Value.of 48)])).map
        (fun r => (r.1, evictCalls r.2.2)))
      = some ([Ret.set true, Ret.set true, Ret.set true, Ret.get (Value.of 8), Ret.set true],
          [({ fn := 0 }, "a", Value.of 8)]) ∧
    (NewLRUCache 3 { logs := false, evictCallback := some { fn := 0 } } :
      Option (LRUCache Int)).bind (fun l0 =>
      (run l0 (callbackCalls ++ [Op.get "a", Op.set "d" (Value.of 48)])).map
        (fun r => (orderKeys r.2.1, r.2.1.keyMap)))
      = some (["d", "c", "b"], [("d", 3), ("c", 2), ("b", 1)]) ∧
    (Set (withLogs true storeCBA) "d" (Value.of 48)).map (fun r => r.2.2.drop 1)
      = some [Event.log "Elem d added to the front", Event.print "d" (Value.of 48),
          Event.print "c" (Value.of 32), Event.print "b" (Value.of 16)] ∧
    ((∃ (l0 l0b : LRUCache Int) (rs : List (Ret Int)) (l lb : LRUCache Int)
        (ev evb : List (Event Int)),
      NewLRUCache 3 callbackOptions = some l0 ∧
      NewLRUCache 3 { callbackOptions with logs := true } = some l0b ∧
      run l0 (callbackCalls ++ [Op.get "a", Op.set "d" (Value.of 48)]) = some (rs, l, ev) ∧
      run l0b (callbackCalls ++ [Op.get "a", Op.set "d" (Value.of 48)])
        = some (rs, lb, evb) ∧
      evictCalls evb = evictCalls ev ∧
      lb.maxEntries = l.maxEntries ∧ lb.order = l.order ∧ lb.keyMap = l.keyMap ∧
      lb.heap = l.heap ∧ entries lb = entries l ∧
      lb.options.evictCallback = l.options.evictCallback ∧
      lb = withLogs true l) ∧
    (printList storeCBA
        = some ((entries storeCBA).map (fun item => Event.print item.key item.value)) ∧
      evictCalls ((entries storeCBA).map
        (fun item => (Event.print item.key item.value : Event Int))) = [])) :=
  ⟨by decide, by decide, by decide, by decide, by decide, by decide,
    logging_does_not_affect_behaviour 3 callbackOptions (by decide) true
      (callbackCalls ++ [Op.get "a", Op.set "d" (Value.of 48)]) storeCBA
      ((reachable_iff_run storeCBA).2 ⟨3, callbackOptions, _, callbackCalls, _, _, rfl, rfl⟩)⟩

/-! ## Counting the evictions -/

namespace LRUCache

/-- With a callback configured, every call keeps the balance: the callback calls
so far and the resident entries together are the entries there were and the
`Set` calls that returned `true`. -/
theorem run_count (cb : EvictCallback) (l : LRUCache α) (hinv : Inv l)
    (hcb : l.options.evictCallback = some cb) (ops : List (Op α)) :
    ∃ (rs : List (Ret α)) (l1 : LRUCache α) (ev : List (Event α)),
      run l ops = some (rs, l1, ev) ∧ Inv l1 ∧
      (evictCalls ev).length + (entries l1).length = insertions rs + (entries l).length := by
  induction ops generalizing l with
  | nil => exact ⟨[], l, [], rfl, hinv, by simp [evictCalls, insertions]⟩
  | cons op ops ih =>
    cases op with
    | get key =>
      rcases Get_total l hinv key with ⟨v, hg⟩
      rcases ih l hinv hcb with ⟨rs, l2, ev, h1, hi2, h2⟩
      refine ⟨Ret.get v :: rs, l2, ev, by simp [run, step, hg, h1], hi2, ?_⟩
      simpa [insertions] using h2
    | set key value =>
      rcases Set_cases l hinv key value with ⟨b, l1, ev1, hset, hinv1, _, hopt, hcase⟩
      rcases ih l1 hinv1 (hopt ▸ hcb) with ⟨rs, l2, ev, h1, hi2, h2⟩
      refine ⟨Ret.set b :: rs, l2, ev1 ++ ev, by simp [run, step, hset, h1], hi2, ?_⟩
      rw [evictCalls_append, List.length_append]
      rcases hcase with ⟨hres, hb, hent, hcalls⟩ | ⟨_, _, hb, hent, hcalls⟩ |
        ⟨_, _, hb, fr, t, h3, hent, hcalls⟩
      · have hlen : (entries l1).length = (entries l).length := by
          rw [entries_length l1 hinv1, entries_length l hinv]
          have hget : ∃ e, GoMap.get l.keyMap key = some e := by
            cases hg : GoMap.get l.keyMap key with
            | none => exact absurd hres ((get_none_iff l hinv key).1 hg)
            | some e => exact ⟨e, rfl⟩
          rcases hget with ⟨e, hg⟩
          rcases Set_hit l hinv key value e hg with ⟨ev4, hs4, _⟩
          rw [hset] at hs4
          simp only [Option.some.injEq, Prod.mk.injEq] at hs4
          rw [hs4.2.1]
          have ho := (hinv.get_some key e hg).1
          have h5 := List.length_erase_of_mem ho
          have h6 : 0 < l.order.length := List.length_pos_of_mem ho
          simp only [List.length_cons]
          omega
        rw [hb, hcalls]
        simp only [insertions, List.length_nil]
        omega
      · have hlen : (entries l1).length = (entries l).length + 1 := by
          rw [hent]; simp
        rw [hb, hcalls]
        simp only [insertions, List.length_nil]
        omega
      · have hlen : (entries l1).length = (entries l).length := by
          rw [hent, h3]; simp
        rw [hb, hcalls, hcb]
        simp only [insertions, List.length_singleton]
        omega

/-- Calls of `Set` with pairwise distinct keys, none of them resident: every call
returns `true`, and the store fills up to its capacity. -/
theorem run_distinct (l : LRUCache α) (hinv : Inv l) (kvs : List (String × Value α))
    (hnd : (kvs.map Prod.fst).Nodup) (hnew : ∀ k ∈ kvs.map Prod.fst, k ∉ orderKeys l) :
    ∃ (rs : List (Ret α)) (l1 : LRUCache α) (ev : List (Event α)),
      run l (kvs.map (fun kv => Op.set kv.1 kv.2)) = some (rs, l1, ev) ∧
      insertions rs = kvs.length ∧
      (entries l1).length = min l.maxEntries.toNat ((entries l).length + kvs.length) := by
  induction kvs generalizing l with
  | nil =>
    refine ⟨[], l, [], rfl, rfl, ?_⟩
    have h1 := hinv.len_le
    have h2 := entries_length l hinv
    simp only [GoList.Len] at h1
    simp only [List.length_nil, Nat.add_zero]
    omega
  | cons kv rest ih =>
    simp only [List.map_cons, List.nodup_cons] at hnd
    have hk : kv.1 ∉ orderKeys l := hnew kv.1 (by simp)
    rcases Set_cases l hinv kv.1 kv.2 with ⟨b, l1, ev1, hset, hinv1, hmax, _, hcase⟩
    have hlenl := entries_length l hinv
    have hcap := hinv.cap_pos
    have hle := hinv.len_le
    simp only [GoList.Len] at hle
    have hstep : b = true ∧
        (∀ k ∈ rest.map Prod.fst, k ∉ orderKeys l1) ∧
        min l1.maxEntries.toNat ((entries l1).length + rest.length)
          = min l.maxEntries.toNat ((entries l).length + (rest.length + 1)) := by
      rcases hcase with ⟨hres, _⟩ | ⟨_, hlt, hb, hent, _⟩ | ⟨_, hfull, hb, fr, t, h3, hent, _⟩
      · exact absurd hres hk
      · refine ⟨hb, ?_, ?_⟩
        · intro k hkin
          simp only [orderKeys, hent, List.map_cons, List.mem_cons, not_or]
          refine ⟨?_, hnew k (by simp [List.mem_map] at hkin ⊢; exact Or.inr hkin)⟩
          intro h4
          exact hnd.1 (h4 ▸ hkin)
        · rw [hmax, hent]
          simp only [List.length_cons]
          omega
      · refine ⟨hb, ?_, ?_⟩
        · intro k hkin
          simp only [orderKeys, hent, List.map_cons, List.mem_cons, not_or]
          refine ⟨?_, ?_⟩
          · intro h4
            exact hnd.1 (h4 ▸ hkin)
          · intro h4
            apply hnew k (by simp [List.mem_map] at hkin ⊢; exact Or.inr hkin)
            simp only [orderKeys, h3, List.map_append, List.mem_append]
            exact Or.inl h4
        · have h5 : (entries l1).length = (entries l).length := by
            rw [hent, h3]; simp
          simp only [GoList.Len] at hfull
          rw [hmax, h5]
          omega
    rcases hstep with ⟨hb, hnew1, hmin⟩
    rcases ih l1 hinv1 hnd.2 hnew1 with ⟨rs, l2, ev, h1, h2, h3⟩
    refine ⟨Ret.set b :: rs, l2, ev1 ++ ev, by simp [run, step, hset, h1], ?_, ?_⟩
    · rw [hb]
      simp only [insertions, List.length_cons, h2]
    · rw [h3, hmin]
      simp only [List.length_cons]

end LRUCache

/-- C15 (eviction count): for every capacity `c > 0`, all options with an
eviction callback and every sequence of calls on the store returned by
`NewLRUCache(c, opts)`, the calls return and the number of callback calls is the
number of `Set` calls that returned `true` minus the final resident count.  For
`Set` calls with pairwise distinct keys, `n` of them, every call returns `true`,
the final count is `min(c, n)` and the number of callback calls is
`max(0, n - c)`, which is not zero when `n > c`. -/
theorem eviction_count (c : Int) (opts : Options) (hc : 0 < c) (cb : EvictCallback)
    (hcb : opts.evictCallback = some cb) (ops : List (Op α))
    (kvs : List (String × Value α)) :
    (∃ (l0 : LRUCache α) (rs : List (Ret α)) (l : LRUCache α) (ev : List (Event α)),
      NewLRUCache c opts = some l0 ∧ run l0 ops = some (rs, l, ev) ∧
      (evictCalls ev).length + (entries l).length = insertions rs ∧
      (evictCalls ev).length = insertions rs - (entries l).length) ∧
    ((kvs.map Prod.fst).Nodup →
      ∃ (l0 : LRUCache α) (rs : List (Ret α)) (l : LRUCache α) (ev : List (Event α)),
        NewLRUCache c opts = some l0 ∧
        run l0 (kvs.map (fun kv => Op.set kv.1 kv.2)) = some (rs, l, ev) ∧
        insertions rs = kvs.length ∧
        ((entries l).length : Int) = min c kvs.length ∧
        ((evictCalls ev).length : Int) = max 0 ((kvs.length : Int) - c) ∧
        (c < kvs.length → 0 < (evictCalls ev).length)) := by
  have hinv0 : Inv
      ({ maxEntries := c, keyMap := [], order := [], options := opts, heap := [] } :
        LRUCache α) := Inv_new c opts hc
  constructor
  · rcases run_count cb _ hinv0 hcb ops with ⟨rs, l, ev, hr, _, hbal⟩
    have hbal2 : (evictCalls ev).length + (entries l).length = insertions rs := by
      simpa [entries] using hbal
    exact ⟨_, rs, l, ev, NewLRUCache_eq c opts hc, hr, hbal2, by omega⟩
  · intro hnd
    rcases run_count cb _ hinv0 hcb (kvs.map (fun kv => Op.set kv.1 kv.2)) with
      ⟨rs, l, ev, hr, _, hbal⟩
    rcases run_distinct _ hinv0 kvs hnd (by intro k _; simp [orderKeys, entries]) with
      ⟨rs2, l2, ev2, hr2, hins, hlen⟩
    rw [hr] at hr2
    simp only [Option.some.injEq, Prod.mk.injEq] at hr2
    rcases hr2 with ⟨rfl, rfl, rfl⟩
    have hbal2 : (evictCalls ev).length + (entries l).length = insertions rs := by
      simpa [entries] using hbal
    have hlen2 : (entries l).length = min c.toNat kvs.length := by
      simpa [entries] using hlen
    refine ⟨_, rs, l, ev, NewLRUCache_eq c opts hc, hr, hins, ?_, ?_, ?_⟩
    · omega
    · omega
    · intro h
      omega

/-! ## The keys of `TestConcurrencyWithEviction` are distinct -/

theorem string_append_inj (a b x y : String) (hlen : a.length = b.length)
    (h : a ++ x = b ++ y) : a = b ∧ x = y := by
  have h1 : a.data ++ x.data = b.data ++ y.data := by
    rw [← String.data_append, ← String.data_append, h]
  have h2 : a.data.length = b.data.length := hlen
  rcases List.append_inj h1 h2 with ⟨h3, h4⟩
  exact ⟨String.ext h3, String.ext h4⟩

theorem evictionPairs_length : evictionPairs.length = 250 := by
  decide!

theorem evictionPairs_nodup : (evictionPairs.map Prod.fst).Nodup := by
  have hpre_len : ∀ id ∈ List.range 5,
      ("evict-key-" ++ toString id ++ "-").length = 12 := by decide!
  have hpre_inj : ∀ id ∈ List.range 5, ∀ id2 ∈ List.range 5,
      "evict-key-" ++ toString id ++ "-" = "evict-key-" ++ toString id2 ++ "-" → id = id2 := by
    decide!
  have hnum : ((List.range 50).map (fun j : Nat => toString j)).Nodup := by decide!
  have hkeys : evictionPairs.map Prod.fst = (List.range 5).flatMap (fun id =>
      ((List.range 50).map (fun j : Nat => toString j)).map
        (fun s => "evict-key-" ++ toString id ++ "-" ++ s)) := by
    simp [evictionPairs, List.map_flatMap, List.map_map, Function.comp_def]
  rw [hkeys, List.nodup_flatMap]
  constructor
  · intro id _
    apply List.Nodup.map _ hnum
    intro s1 s2 h
    exact (string_append_inj _ _ s1 s2 rfl h).2
  · refine (List.nodup_range 5).pairwise_of_forall_ne ?_
    intro id hid id2 hid2 hne
    simp only [Function.onFun, List.disjoint_left, List.mem_map]
    rintro x ⟨s1, _, h1⟩ ⟨s2, _, h2⟩
    have h3 := string_append_inj _ _ s1 s2
      ((hpre_len id hid).trans (hpre_len id2 hid2).symm) (h1.trans h2.symm)
    exact hne (hpre_inj id hid id2 hid2 h3.1)

/-- Witness of C15, the scenario of `TestConcurrencyWithEviction`: 250 calls of
`Set` with pairwise distinct keys on a store of capacity 10 with a callback all
return `true`, leave 10 entries and call the callback 240 times; and the first
five of these calls on a store of capacity 3 call it twice. -/
theorem eviction_count_witness :
    (0 : Int) < 10 ∧ evictionPairs.length = 250 ∧
    (NewLRUCache 3 callbackOptions : Option (LRUCache Int)).bind (fun l0 =>
      (run l0 ((evictionPairs.take 5).map (fun kv => Op.set kv.1 kv.2))).map
        (fun r => ((evictCalls r.2.2).length, insertions r.1, (entries r.2.1).length)))
      = some (2, 5, 3) ∧
    (∃ (l0 : LRUCache Int) (rs : List (Ret Int)) (l : LRUCache Int) (ev : List (Event Int)),
      NewLRUCache 10 callbackOptions = some l0 ∧
      run l0 (evictionPairs.map (fun kv => Op.set kv.1 kv.2)) = some (rs, l, ev) ∧
      (evictCalls ev).length + (entries l).length = insertions rs ∧
      (evictCalls ev).length = insertions rs - (entries l).length) ∧
    ∃ (l0 : LRUCache Int) (rs : List (Ret Int)) (l : LRUCache Int) (ev : List (Event Int)),
      NewLRUCache 10 callbackOptions = some l0 ∧
      run l0 (evictionPairs.map (fun kv => Op.set kv.1 kv.2)) = some (rs, l, ev) ∧
      insertions rs = 250 ∧ (entries l).length = 10 ∧ (evictCalls ev).length = 240 := by
  refine ⟨by decide, evictionPairs_length, by decide!, ?_, ?_⟩
  · exact (eviction_count 10 callbackOptions (by decide) { fn := 0 } rfl
      (evictionPairs.map (fun kv => Op.set kv.1 kv.2)) evictionPairs).1
  · rcases (eviction_count 10 callbackOptions (by decide) { fn := 0 } rfl
      (evictionPairs.map (fun kv => Op.set kv.1 kv.2)) evictionPairs).2 evictionPairs_nodup
      with ⟨l0, rs, l, ev, h1, h2, h3, h4, h5, _⟩
    rw [evictionPairs_length] at h3 h4 h5
    exact ⟨l0, rs, l, ev, h1, h2, h3, by omega, by omega⟩

/-! ## The reference model -/

theorem modelRun_cons (c : Nat) (L : List (CacheItem α)) (op : Op α) (ops : List (Op α)) :
    modelRun c L (op :: ops) =
      ((modelStep c L op).1 :: (modelRun c (modelStep c L op).2 ops).1,
        (modelRun c (modelStep c L op).2 ops).2) := rfl

namespace LRUCache

/-- One call on the store and on the model agree: same return value, and the
entries after the call are the list of the model. -/
theorem step_model (l : LRUCache α) (hinv : Inv l) (op : Op α) :
    ∃ (r : Ret α) (l1 : LRUCache α) (ev : List (Event α)),
      step l op = some (r, l1, ev) ∧ Inv l1 ∧ l1.maxEntries = l.maxEntries ∧
      (r, entries l1) = modelStep l.maxEntries.toNat (entries l) op := by
  cases op with
  | get key =>
    refine ⟨Ret.get (modelGet (entries l) key), l, [], ?_, hinv, rfl, rfl⟩
    simp [step, Get_eq_modelGet l hinv key]
  | set key value =>
    rcases Set_cases l hinv key value with ⟨b, l1, ev, hset, hinv1, hmax, _, hcase⟩
    refine ⟨Ret.set b, l1, ev, by simp [step, hset], hinv1, hmax, ?_⟩
    have hle1 : (entries l1).length ≤ l.maxEntries.toNat := by
      have h1 := hinv1.len_le
      rw [hmax] at h1
      rw [entries_length l1 hinv1]
      simp only [GoList.Len] at h1
      omega
    simp only [modelStep, modelSet]
    rcases hcase with ⟨hres, hb, hent, _⟩ | ⟨hk, _, hb, hent, _⟩ |
      ⟨hk, hfull, hb, fr, t, h3, hent, _⟩
    · rw [← hent, List.take_of_length_le hle1, hb]
      simp [orderKeys] at hres
      simp [hres]
    · have hfil := filter_key_eq_self l hinv key ((get_none_iff l hinv key).2 hk)
      rw [hfil, ← hent, List.take_of_length_le hle1, hb]
      have : key ∉ (entries l).map CacheItem.key := hk
      simp only [this, not_false_eq_true, decide_True]
    · have hfil := filter_key_eq_self l hinv key ((get_none_iff l hinv key).2 hk)
      have hlen : l.maxEntries.toNat = (entries l1).length := by
        have h1 := entries_length l hinv
        simp only [GoList.Len] at hfull
        rw [hent]
        rw [h3] at h1
        simp only [List.length_append, List.length_singleton, List.length_cons,
          List.length_nil] at h1 ⊢
        omega
      have htake : List.take l.maxEntries.toNat
          (({ key := key, value := value } : CacheItem α) :: (fr ++ [t])) = entries l1 := by
        rw [hlen, hent, ← List.cons_append]
        exact List.take_left' rfl
      rw [hfil, h3, htake, hb]
      have : key ∉ (fr ++ [t]).map CacheItem.key := by
        rw [← h3]; exact hk
      simp only [this, not_false_eq_true, decide_True]

/-- The calls on the store and on the model agree: same return values, and the
entries after the calls are the list of the model. -/
theorem run_model (l : LRUCache α) (hinv : Inv l) (ops : List (Op α)) :
    ∃ (rs : List (Ret α)) (l1 : LRUCache α) (ev : List (Event α)),
      run l ops = some (rs, l1, ev) ∧ Inv l1 ∧
      (rs, entries l1) = modelRun l.maxEntries.toNat (entries l) ops := by
  induction ops generalizing l with
  | nil => exact ⟨[], l, [], rfl, hinv, rfl⟩
  | cons op ops ih =>
    rcases step_model l hinv op with ⟨r, l1, ev1, hs, hinv1, hmax, hm⟩
    rcases ih l1 hinv1 with ⟨rs, l2, ev2, hr, hinv2, hm2⟩
    refine ⟨r :: rs, l2, ev1 ++ ev2, by simp [run, hs, hr], hinv2, ?_⟩
    rw [modelRun_cons, ← hm]
    simp only
    rw [← hmax, ← hm2]

end LRUCache

/-! ## The list of all pairs set, by recency -/

theorem recency_snoc_set (L : List (CacheItem α)) (ops : List (Op α)) (k : String)
    (v : Value α) :
    recency L (ops ++ [Op.set k v]) =
      ({ key := k, value := v } : CacheItem α) ::
        (recency L ops).filter (fun item => decide (item.key ≠ k)) := by
  induction ops generalizing L with
  | nil => rfl
  | cons op ops ih =>
    cases op with
    | set k2 v2 => exact ih _
    | get k2 => exact ih _

theorem recency_snoc_get (L : List (CacheItem α)) (ops : List (Op α)) (k : String) :
    recency L (ops ++ [Op.get k]) = recency L ops := by
  induction ops generalizing L with
  | nil => rfl
  | cons op ops ih =>
    cases op with
    | set k2 v2 => exact ih _
    | get k2 => exact ih _

theorem lastValue_snoc_set (ops : List (Op α)) (k : String) (v : Value α) (key : String) :
    lastValue (ops ++ [Op.set k v]) key = if k = key then some v else lastValue ops key := by
  induction ops with
  | nil => by_cases hk : k = key <;> simp [lastValue, hk]
  | cons op ops ih =>
    rw [List.cons_append]
    by_cases hk : k = key
    · rw [if_pos hk] at ih ⊢
      unfold lastValue
      rw [ih]
      simp
    · rw [if_neg hk] at ih ⊢
      conv_lhs => unfold lastValue
      conv_rhs => unfold lastValue
      rw [ih]

theorem lastValue_snoc_get (ops : List (Op α)) (k : String) (key : String) :
    lastValue (ops ++ [Op.get k]) key = lastValue ops key := by
  induction ops with
  | nil => simp [lastValue]
  | cons op ops ih =>
    rw [List.cons_append]
    conv_lhs => unfold lastValue
    conv_rhs => unfold lastValue
    rw [ih]

theorem mem_setKeyList_iff (ops : List (Op α)) (key : String) :
    key ∈ setKeyList ops ↔ 0 < lastSet ops key := by
  induction ops with
  | nil => simp [setKeyList, lastSet]
  | cons op ops ih =>
    unfold lastSet
    by_cases h : lastSet ops key ≠ 0
    · rw [if_pos h]
      have h1 : key ∈ setKeyList ops := ih.2 (Nat.pos_of_ne_zero h)
      cases op with
      | set k v => simp [setKeyList, h1]
      | get k => simp [setKeyList, h1]
    · rw [if_neg h]
      have h1 : key ∉ setKeyList ops := fun h2 => h (Nat.pos_iff_ne_zero.1 (ih.1 h2))
      cases op with
      | set k v =>
        by_cases hk : k = key
        · simp [setKeyList, hk]
        · have hk2 : ¬ key = k := fun h3 => hk h3.symm
          simp [setKeyList, hk, hk2, h1]
      | get k => simp [setKeyList, h1]

theorem mem_setKeys_iff (ops : List (Op α)) (key : String) :
    key ∈ setKeys ops ↔ 0 < lastSet ops key := by
  unfold setKeys
  rw [List.mem_dedup, mem_setKeyList_iff]

theorem mem_keys_filter (L : List (CacheItem α)) (k k2 : String) (h : k2 ≠ k) :
    k2 ∈ (L.filter (fun item => decide (item.key ≠ k))).map CacheItem.key ↔
      k2 ∈ L.map CacheItem.key := by
  simp only [List.mem_map, List.mem_filter]
  constructor
  · rintro ⟨item, ⟨h1, _⟩, h2⟩
    exact ⟨item, h1, h2⟩
  · rintro ⟨item, h1, h2⟩
    exact ⟨item, ⟨h1, by simpa [h2] using h⟩, h2⟩

theorem not_mem_keys_filter (L : List (CacheItem α)) (k : String) :
    k ∉ (L.filter (fun item => decide (item.key ≠ k))).map CacheItem.key := by
  simp only [List.mem_map, List.mem_filter]
  rintro ⟨item, ⟨_, h1⟩, h2⟩
  have : item.key ≠ k := by simpa using h1
  exact this h2

/-- The list of all pairs set holds exactly the keys that were set, in the order
of their most recent `Set`, latest first, each with the value of that `Set`. -/
theorem recency_spec (ops : List (Op α)) :
    (∀ k, k ∈ (recency [] ops).map CacheItem.key ↔ 0 < lastSet ops k) ∧
    ((recency [] ops).map CacheItem.key).Pairwise (fun a b => lastSet ops b < lastSet ops a) ∧
    (∀ item ∈ recency ([] : List (CacheItem α)) ops,
      lastValue ops item.key = some item.value) := by
  induction ops using List.reverseRecOn with
  | nil => simp [recency, lastSet]
  | append_singleton ops op ih =>
    rcases ih with ⟨hmem, hpw, hval⟩
    cases op with
    | get k =>
      rw [recency_snoc_get]
      refine ⟨?_, ?_, ?_⟩
      · intro k2; rw [lastSet_snoc_get]; exact hmem k2
      · refine hpw.imp ?_
        intro a b hab
        rw [lastSet_snoc_get, lastSet_snoc_get]; exact hab
      · intro item hitem
        rw [lastValue_snoc_get]; exact hval item hitem
    | set k v =>
      rw [recency_snoc_set]
      have hrest : ∀ k2 ∈ ((recency [] ops).filter
          (fun item => decide (item.key ≠ k))).map CacheItem.key,
          k ≠ k2 ∧ k2 ∈ (recency ([] : List (CacheItem α)) ops).map CacheItem.key := by
        intro k2 hk2
        have hne : k2 ≠ k := fun h => not_mem_keys_filter _ k (h ▸ hk2)
        exact ⟨fun h => hne h.symm, (mem_keys_filter _ k k2 hne).1 hk2⟩
      refine ⟨?_, ?_, ?_⟩
      · intro k2
        rw [lastSet_snoc_set, List.map_cons, List.mem_cons]
        by_cases hk : k = k2
        · rw [if_pos hk]
          simp [hk]
        · rw [if_neg hk, mem_keys_filter _ k k2 (fun h => hk h.symm), hmem k2]
          constructor
          · rintro (h | h)
            · exact absurd h.symm hk
            · exact h
          · exact Or.inr
      · rw [List.map_cons]
        refine List.pairwise_cons.2 ⟨?_, ?_⟩
        · intro k2 hk2
          rw [lastSet_snoc_set, lastSet_snoc_set, if_neg (hrest k2 hk2).1, if_pos rfl]
          have := lastSet_le ops k2
          omega
        · have hsub : List.Sublist
              (((recency [] ops).filter (fun item => decide (item.key ≠ k))).map CacheItem.key)
              ((recency ([] : List (CacheItem α)) ops).map CacheItem.key) :=
            List.Sublist.map _ (List.filter_sublist _)
          refine (hpw.sublist hsub).imp_of_mem ?_
          intro a b ha hb hab
          rw [lastSet_snoc_set, lastSet_snoc_set, if_neg (hrest a ha).1, if_neg (hrest b hb).1]
          exact hab
      · intro item hitem
        rw [lastValue_snoc_set]
        rcases List.mem_cons.1 hitem with h | h
        · rw [h]; simp
        · have h2 := List.mem_filter.1 h
          have hne : item.key ≠ k := by simpa using h2.2
          rw [if_neg (fun h3 => hne h3.symm)]
          exact hval item h2.1

theorem recency_keys_nodup (ops : List (Op α)) :
    ((recency ([] : List (CacheItem α)) ops).map CacheItem.key).Nodup := by
  have h := (recency_spec ops).2.1
  unfold List.Nodup
  refine h.imp ?_
  intro a b hab heq
  rw [heq] at hab
  exact Nat.lt_irrefl _ hab

theorem recency_length (ops : List (Op α)) :
    (recency ([] : List (CacheItem α)) ops).length = (setKeys ops).length := by
  have hperm : List.Perm ((recency ([] : List (CacheItem α)) ops).map CacheItem.key)
      (setKeys ops) := by
    have hnd : (setKeys ops).Nodup := List.nodup_dedup (setKeyList ops)
    rw [List.perm_ext_iff_of_nodup (recency_keys_nodup ops) hnd]
    intro k
    rw [(recency_spec ops).1 k, mem_setKeys_iff]
  have := hperm.length_eq
  simpa using this

/-! ## The model is the first `c` pairs of that list -/

theorem take_filter_take (p : CacheItem α → Bool) (c : Nat) (L : List (CacheItem α))
    (h : ∀ (A B : List (CacheItem α)) (x : CacheItem α), L = A ++ x :: B → p x = false →
      ∀ y ∈ B, p y = true) :
    ((L.take (c + 1)).filter p).take c = (L.filter p).take c := by
  induction L generalizing c with
  | nil => simp
  | cons x xs ih =>
    have hxs : ∀ (A B : List (CacheItem α)) (y : CacheItem α), xs = A ++ y :: B →
        p y = false → ∀ z ∈ B, p z = true := by
      intro A B y hsplit hy
      exact h (x :: A) B y (by rw [hsplit]; rfl) hy
    rw [List.take_succ_cons]
    by_cases hp : p x = true
    · rw [List.filter_cons_of_pos hp, List.filter_cons_of_pos hp]
      cases c with
      | zero => simp
      | succ c2 =>
        rw [List.take_succ_cons, List.take_succ_cons, ih c2 hxs]
    · have hp2 : p x = false := by simpa using hp
      have hall : ∀ y ∈ xs, p y = true := h [] xs x rfl hp2
      rw [List.filter_cons_of_neg hp, List.filter_cons_of_neg hp]
      have h1 : xs.filter p = xs := List.filter_eq_self.2 hall
      have h2 : (xs.take c).filter p = xs.take c :=
        List.filter_eq_self.2 (fun y hy => hall y (List.mem_of_mem_take hy))
      rw [h1, h2, List.take_take, Nat.min_self]

theorem modelSet_take (c : Nat) (hc : 0 < c) (L : List (CacheItem α))
    (hnd : (L.map CacheItem.key).Nodup) (k : String) (v : Value α) :
    modelSet c (L.take c) k v =
      (({ key := k, value := v } : CacheItem α) ::
        L.filter (fun item => decide (item.key ≠ k))).take c := by
  obtain ⟨c2, rfl⟩ : ∃ c2, c = c2 + 1 := ⟨c - 1, by omega⟩
  unfold modelSet
  rw [List.take_succ_cons, List.take_succ_cons]
  congr 1
  apply take_filter_take
  intro A B x hsplit hx y hy
  have hxk : x.key = k := by simpa using hx
  rw [hsplit] at hnd
  simp only [List.map_append, List.map_cons] at hnd
  have h1 := (List.nodup_append.1 hnd).2.1
  have h2 := (List.nodup_cons.1 h1).1
  have : y.key ≠ k := by
    intro h3
    apply h2
    rw [hxk, ← h3]
    exact List.mem_map_of_mem CacheItem.key hy
  simpa using this

theorem modelRun_take (c : Nat) (hc : 0 < c) (L : List (CacheItem α))
    (hnd : (L.map CacheItem.key).Nodup) (ops : List (Op α)) :
    (modelRun c (L.take c) ops).2 = (recency L ops).take c := by
  induction ops generalizing L with
  | nil => rfl
  | cons op ops ih =>
    rw [modelRun_cons]
    cases op with
    | get k =>
      simp only [modelStep, recency]
      exact ih L hnd
    | set k v =>
      simp only [modelStep, recency]
      rw [modelSet_take c hc L hnd k v]
      apply ih
      rw [List.map_cons]
      refine List.nodup_cons.2 ⟨not_mem_keys_filter L k, ?_⟩
      exact List.Nodup.sublist (List.Sublist.map _ (List.filter_sublist _)) hnd

/-- C14 (reference-model equivalence): for every capacity `c > 0`, all options and
every sequence `ops` of `Set` and `Get` calls on the store returned by
`NewLRUCache(c, opts)`, the calls return, the values they return (every `Set`
return value and every `Get` result) are those of the model, and the entries of
the ordered sequence from front to back are the list of the model.  Hence the
resident entries are the first `min(c, d)` pairs of the list `R` of the `d`
distinct keys set so far, ordered by their most recent `Set`, latest first, each
with the value of its most recent `Set`, whether or not the key was evicted in
between. -/
theorem reference_model_equivalence (c : Int) (opts : Options) (hc : 0 < c)
    (ops : List (Op α)) :
    ∃ (l0 : LRUCache α) (rs : List (Ret α)) (l : LRUCache α) (ev : List (Event α))
        (R : List (CacheItem α)),
      NewLRUCache c opts = some l0 ∧ run l0 ops = some (rs, l, ev) ∧
      (rs, entries l) = modelRun c.toNat [] ops ∧
      entries l = R.take c.toNat ∧
      (∀ k, k ∈ R.map CacheItem.key ↔ k ∈ setKeys ops) ∧
      (R.map CacheItem.key).Pairwise (fun a b => lastSet ops b < lastSet ops a) ∧
      (∀ item ∈ R, lastValue ops item.key = some item.value) ∧
      R.length = (setKeys ops).length ∧
      (entries l).length = min c.toNat (setKeys ops).length ∧
      (∀ item ∈ entries l, lastValue ops item.key = some item.value) := by
  have hinv0 : Inv
      ({ maxEntries := c, keyMap := [], order := [], options := opts, heap := [] } :
        LRUCache α) := Inv_new c opts hc
  rcases run_model _ hinv0 ops with ⟨rs, l, ev, hr, _, hm⟩
  have hm2 : (rs, entries l) = modelRun c.toNat [] ops := by
    simpa [entries] using hm
  have hc2 : 0 < c.toNat := by omega
  have htake : entries l = (recency [] ops).take c.toNat := by
    have h1 := modelRun_take c.toNat hc2 ([] : List (CacheItem α)) (by simp) ops
    rw [List.take_nil, ← hm2] at h1
    exact h1
  rcases recency_spec ops with ⟨hmem, hpw, hval⟩
  refine ⟨_, rs, l, ev, recency [] ops, NewLRUCache_eq c opts hc, hr, hm2, htake, ?_, hpw,
    hval, recency_length ops, ?_, ?_⟩
  · intro k
    rw [hmem k, mem_setKeys_iff]
  · rw [htake, List.length_take, recency_length]
  · intro item hitem
    rw [htake] at hitem
    exact hval item (List.mem_of_mem_take hitem)

/-- Witness of C14 with capacity 3: the calls of `TestSetOutRange` up to `Set(d,5)`,
which evicts `b`, then `Set(b,7)`, which inserts `b` again and evicts `c`, then
`Get(c)` and `Get(b)`; the store and the model return the same values and end
with `[(b,7), (d,5), (a,4)]`, the three most recently set of the four keys. -/
theorem reference_model_equivalence_witness :
    (0 : Int) < 3 ∧
    modelRun 3 [] reinsertCalls
      = ([Ret.set true, Ret.set true, Ret.set true, Ret.set false, Ret.set true, Ret.set true,
          Ret.get Value.nil, Ret.get (Value.of 7)],
        [{ key := "b", value := Value.of 7 }, { key := "d", value := Value.of 5 },
          { key := "a", value := Value.of 4 }]) ∧
    (NewLRUCache 3 testOptions : Option (LRUCache Int)).bind (fun l0 =>
      (run l0 reinsertCalls).map (fun r => (r.1, entries r.2.1)))
      = some ([Ret.set true, Ret.set true, Ret.set true, Ret.set false, Ret.set true,
          Ret.set true, Ret.get Value.nil, Ret.get (Value.of 7)],
        [{ key := "b", value := Value.of 7 }, { key := "d", value := Value.of 5 },
          { key := "a", value := Value.of 4 }]) ∧
    setKeys reinsertCalls = ["c", "a", "d", "b"] ∧
    ∃ (l0 : LRUCache Int) (rs : List (Ret Int)) (l : LRUCache Int) (ev : List (Event Int))
        (R : List (CacheItem Int)),
      NewLRUCache 3 testOptions = some l0 ∧ run l0 reinsertCalls = some (rs, l, ev) ∧
      (rs, entries l) = modelRun (3 : Int).toNat [] reinsertCalls ∧
      entries l = R.take (3 : Int).toNat ∧
      (∀ k, k ∈ R.map CacheItem.key ↔ k ∈ setKeys reinsertCalls) ∧
      (R.map CacheItem.key).Pairwise
        (fun a b => lastSet reinsertCalls b < lastSet reinsertCalls a) ∧
      (∀ item ∈ R, lastValue reinsertCalls item.key = some item.value) ∧
      R.length = (setKeys reinsertCalls).length ∧
      (entries l).length = min (3 : Int).toNat (setKeys reinsertCalls).length ∧
      (∀ item ∈ entries l, lastValue reinsertCalls item.key = some item.value) :=
  ⟨by decide, by decide, by decide, by decide,
    reference_model_equivalence 3 testOptions (by decide) reinsertCalls⟩

end LruCacheGo
